import Mathlib

/-!
# Turboshell — verification of the core subsystems

Shallow embedding of the Turboshell sources (`src/runlist.rs`, `src/resolve.rs`,
`src/seedfile.rs`, `src/unpack.rs`, `src/commands/compile.rs`) together with
proofs about the resolver, the environment composition, the seed-file codec and
the signed-archive framing.

Conventions used throughout:
* Rust `String` / `PathBuf` values are Lean `String`s.
* Rust `u8`/`u32` values are `Nat`s, reduced `% 2^8` / `% 2^32` exactly where
  the Rust code truncates or wraps.
* `BTreeMap<String, String>` is an association list kept sorted by key via the
  insertion function `btInsert` (mirroring B-tree insertion order semantics).
* `HashSet<Package>` is a duplicate-free `List Package` with insert/erase.
* Fallible Rust functions return `Except`/`Option`, or a dedicated outcome
  type when a panic has to be distinguished from a typed error.
-/

namespace Turboshell

/-! ## `runlist.rs`: `Env`, `Package`, `Role`

`Env` is a `BTreeMap<String, String>`: we model it as an association list in
ascending key order.  `btInsert` inserts a binding keeping the order, replacing
the value when the key is already present (BTreeMap `insert` semantics); a
`BTreeMap` iterates its entries in ascending key order, which is the order of
the modelled list. -/

def Env := List (String × String)

instance : DecidableEq Env := by
  unfold Env
  infer_instance

/-- Lexicographic string order (the `Ord` a `BTreeMap<String, _>` keys by),
stated on the character lists so that it evaluates inside the kernel.  This is
exactly Lean's `String.lt`. -/
def strLt (a b : String) : Bool := decide (a.data < b.data)

/-- `BTreeMap::insert`: sorted-position insertion, replacing an existing
binding for the same key. -/
def btInsert : List (String × String) → String → String → List (String × String)
  | [], k, v => [(k, v)]
  | (k0, v0) :: tl, k, v =>
    if strLt k k0 then (k, v) :: (k0, v0) :: tl
    else if k = k0 then (k, v) :: tl
    else (k0, v0) :: btInsert tl k v

/-- `BTreeMap::get` (first binding for the key). -/
def btLookup : List (String × String) → String → Option String
  | [], _ => none
  | (k0, v0) :: tl, k => if k = k0 then some v0 else btLookup tl k

/-- `BTreeMap::contains_key`. -/
def btContains (m : List (String × String)) (k : String) : Bool :=
  (btLookup m k).isSome

/-- `Package` (`runlist.rs`).  `dependencies` is the `BTreeMap<String, String>`
of dependency name to version token. -/
structure Package where
  dir : String
  name : String
  version : String
  main : String
  env : List (String × String)
  dependencies : List (String × String)
deriving DecidableEq, Repr

/-- `Role` (`runlist.rs`). -/
structure Role where
  path : String
  name : String
  dependencies : List Package
  env : List (String × String)
deriving DecidableEq, Repr

/-- The dependency-table construction loop of `Package::from_file`
(`runlist.rs` lines 134-153): each declared dependency name is inserted into a
`BTreeMap` paired with the literal version token `"local"`. -/
def declToDeps (names : List String) : List (String × String) :=
  names.foldl (fun m n => btInsert m n "local") []

/-! ## `resolve.rs`: `Stack`, `Executable`, `PackageRepository` -/

/-- The `Stack` of `resolve.rs`.  The Rust struct indexes `vec[level]` and
`saved[level]` with `level = vec.len() - 1` at all times; we keep the current
(top) level at the head of each list, so `push`/`pop`/`push_saved`/`pop_saved`
operate on the heads.  Within one level, `vec` is a Rust `Vec` used LIFO
(modelled head-first, `push` = cons, `pop` = head) and `saved` is a `VecDeque`
with `push_front` (cons) and `pop_back` (last element). -/
structure Stack where
  vec : List (List Package)
  saved : List (List Package)
deriving Repr

def Stack.new : Stack := ⟨[[]], [[]]⟩

def Stack.push (s : Stack) (p : Package) : Stack :=
  match s.vec with
  | [] => s
  | top :: rest => { s with vec := (p :: top) :: rest }

def Stack.pop (s : Stack) : Option (Package × Stack) :=
  match s.vec with
  | [] => none
  | [] :: _ => none
  | (p :: top) :: rest => some (p, { s with vec := top :: rest })

def Stack.pushSaved (s : Stack) (p : Package) : Stack :=
  match s.saved with
  | [] => s
  | top :: rest => { s with saved := (p :: top) :: rest }

def Stack.popSaved (s : Stack) : Option (Package × Stack) :=
  match s.saved with
  | [] => none
  | top :: rest =>
    match top.getLast? with
    | none => none
    | some p => some (p, { s with saved := top.dropLast :: rest })

def Stack.atTop (s : Stack) : Bool := s.vec.length == 1

def Stack.indent (s : Stack) : Stack :=
  { vec := [] :: s.vec, saved := [] :: s.saved }

/-- `Stack::outdent` removes the current level; it errors when already at the
top.  (In `resolve` it is only ever called when not at the top.) -/
def Stack.outdent (s : Stack) : Except String Stack :=
  match s.vec, s.saved with
  | _ :: (v :: vs), _ :: (w :: ws) => Except.ok ⟨v :: vs, w :: ws⟩
  | _, _ => Except.error "already at top level"

/-- `Executable` (`resolve.rs`). -/
structure Executable where
  dir : String
  name : String
  main : String
  env : List (String × String)
deriving DecidableEq, Repr

/-- `Executable::from_role_and_package` (`resolve.rs` lines 78-93): clone the
package env, then for each binding of the role env (BTreeMap order) overwrite
the value only when the key already exists. -/
def Executable.fromRoleAndPackage (role : Role) (package : Package) : Executable :=
  let env := role.env.foldl
    (fun e kv => if btContains e kv.1 then btInsert e kv.1 kv.2 else e)
    package.env
  { dir := package.dir, name := package.name, main := package.main, env := env }

/-- `PackageRepository` (`resolve.rs`): the map from each `Package` to its
ordered dependency vector, modelled as an association list keyed by the whole
`Package` (the Rust `HashMap` hashes the full struct). -/
structure PackageRepository where
  deps : List (Package × List Package)
deriving Repr

/-- `HashMap::get` on the repository. -/
def PackageRepository.get (repo : PackageRepository) (p : Package) :
    Option (List Package) :=
  (repo.deps.find? (fun e => e.1 = p)).map (·.2)

/-- `PackageRepository::dependencies` (`resolve.rs` lines 137-143): the stored
vector, collapsing the empty vector to `none`. -/
def PackageRepository.dependencies (repo : PackageRepository) (p : Package) :
    Option (List Package) :=
  (repo.get p).bind (fun d => if d.length = 0 then none else some d)

/-- The raw dependency edge list of a package in a repository (empty when the
package is not a key).  This is the relation the stored map induces; it is used
to state reachability and cycles. -/
def PackageRepository.depList (repo : PackageRepository) (p : Package) :
    List Package :=
  (repo.get p).getD []

/-! ### The resolver loop

`PackageRepository::resolve` (`resolve.rs` lines 144-221) is a `loop` inside a
`for role in roles` loop.  We model it as a small-step machine: one `step` is
one iteration of the Rust `loop` (drain the saved queue of the current level,
then process one stack pop), or the transition to the next role.  The emitted
`sorted` vector is kept as `(Executable, Package)` pairs so the originating
package of each emission can be spoken about; `resolve` projects the first
components, matching the Rust `Vec<Executable>`. -/

/-- Machine state: the roles not yet started, the current role with its stack
(if a role is in progress), the persistent `marks`, the per-call `temp_marks`,
and the output so far. -/
structure RState where
  pending : List Role
  cur : Option (Role × Stack)
  marks : List Package
  temp : List Package
  sorted : List (Executable × Package)
deriving Repr

/-- `HashSet::insert`. -/
def hsInsert (l : List Package) (p : Package) : List Package :=
  if p ∈ l then l else p :: l

/-- `HashSet::remove`. -/
def hsRemove (l : List Package) (p : Package) : List Package := l.erase p

/-- One round of the inner saved-drain `loop` (`resolve.rs` lines 160-169),
driven by a structural counter: each `pop_saved` result is marked,
un-temp-marked, and emitted; the loop stops when `pop_saved` yields nothing. -/
def drainSavedAux (role : Role) : Nat → Stack → List Package → List Package →
    List (Executable × Package) →
    (Stack × List Package × List Package × List (Executable × Package))
  | 0, st, marks, temp, sorted => (st, marks, temp, sorted)
  | n + 1, st, marks, temp, sorted =>
    match st.popSaved with
    | none => (st, marks, temp, sorted)
    | some (p, st') =>
      drainSavedAux role n st' (hsInsert marks p) (hsRemove temp p)
        (sorted ++ [(Executable.fromRoleAndPackage role p, p)])

/-- Drain the saved queue of the current level.  One `pop_saved` removes one
element of the current level's queue, so that queue's length is exactly the
number of rounds the Rust inner loop makes before `pop_saved` returns `None`. -/
def drainSaved (role : Role) (st : Stack) (marks temp : List Package)
    (sorted : List (Executable × Package)) :
    (Stack × List Package × List Package × List (Executable × Package)) :=
  drainSavedAux role (st.saved.headD []).length st marks temp sorted

/-- Result of one step of the resolver machine. -/
inductive StepOut where
  | cont (s : RState)
  | done (sorted : List (Executable × Package))
  | fail (msg : String)
deriving Repr

/-- Set up the stack for a role (`resolve.rs` lines 151-158): clone the role's
dependency vector, reverse it, and push each element. -/
def initStack (role : Role) : Stack :=
  role.dependencies.reverse.foldl Stack.push Stack.new

/-- One iteration of the resolver: when no role is in progress, either finish
or start the next role; otherwise run one iteration of the Rust `loop`. -/
def step (repo : PackageRepository) (s : RState) : StepOut :=
  match s.cur with
  | none =>
    match s.pending with
    | [] => StepOut.done s.sorted
    | r :: rest =>
      StepOut.cont { s with pending := rest, cur := some (r, initStack r) }
  | some (role, st) =>
    -- drain the saved queue at this level first
    let (st, marks, temp, sorted) := drainSaved role st s.marks s.temp s.sorted
    match st.pop with
    | some (package, st) =>
      if package ∈ temp then
        StepOut.fail "cycle detected"
      else if package ∈ marks then
        StepOut.cont { s with cur := some (role, st), marks := marks,
                              temp := temp, sorted := sorted }
      else
        let temp := hsInsert temp package
        match repo.dependencies package with
        | some deps =>
          let st := (st.pushSaved package).indent
          let st := deps.foldl Stack.push st
          StepOut.cont { s with cur := some (role, st), marks := marks,
                                temp := temp, sorted := sorted }
        | none =>
          StepOut.cont { s with cur := some (role, st),
                                marks := hsInsert marks package,
                                temp := hsRemove temp package,
                                sorted := sorted ++
                                  [(Executable.fromRoleAndPackage role package,
                                    package)] }
    | none =>
      if st.atTop then
        StepOut.cont { s with cur := none, marks := marks, temp := temp,
                              sorted := sorted }
      else
        match st.outdent with
        | Except.ok st =>
          StepOut.cont { s with cur := some (role, st), marks := marks,
                                temp := temp, sorted := sorted }
        | Except.error e => StepOut.fail e

/-- Outcome of running the resolver machine with a given amount of fuel. -/
inductive ResolveOut where
  | ok (sorted : List (Executable × Package))
  | fail (msg : String)
  | outOfFuel
deriving DecidableEq, Repr

/-- Iterate `step` for at most `fuel` iterations. -/
def resolveLoop (repo : PackageRepository) : Nat → RState → ResolveOut
  | 0, _ => ResolveOut.outOfFuel
  | fuel + 1, s =>
    match step repo s with
    | StepOut.cont s' => resolveLoop repo fuel s'
    | StepOut.done sorted => ResolveOut.ok sorted
    | StepOut.fail msg => ResolveOut.fail msg

/-- Initial machine state for `resolve`. -/
def initState (roles : List Role) : RState :=
  { pending := roles, cur := none, marks := [], temp := [], sorted := [] }

/-- A fuel bound sufficient for termination (established later): a potential
function over the machine state. -/
def fuelBound (repo : PackageRepository) (roles : List Role) : Nat :=
  let allPkgs := repo.deps.foldl (fun acc e => acc ++ [e.1] ++ e.2) [] ++
    roles.foldl (fun acc r => acc ++ r.dependencies) []
  let maxDeps := repo.deps.foldl (fun acc e => max acc e.2.length) 0
  (maxDeps + 2) * (allPkgs.length + 1) +
    roles.foldl (fun acc r => acc + r.dependencies.length + 2) 0 + 1

/-- `PackageRepository::resolve`, with the emission pairs retained. -/
def resolvePairs (repo : PackageRepository) (roles : List Role) : ResolveOut :=
  resolveLoop repo (fuelBound repo roles) (initState roles)

/-- `PackageRepository::resolve`: the executable sequence (or an error). -/
def resolve (repo : PackageRepository) (roles : List Role) :
    Except String (List Executable) :=
  match resolvePairs repo roles with
  | ResolveOut.ok sorted => Except.ok (sorted.map (·.1))
  | ResolveOut.fail msg => Except.error msg
  | ResolveOut.outOfFuel => Except.error "out of fuel"

/-! ### Concrete repositories for the tested emission contract

These mirror the `tests/resources/package_repository_unit_tests` fixtures used
by `simple_resolver_test` and `cyclical_resolver_test`: packages whose
manifests declare the stated dependencies (the dependency table is built by
`declToDeps` exactly as `Package::from_file` builds it). -/

def mkPkg (name : String) (deps : List String) : Package :=
  { dir := "/base/" ++ name, name := name, version := "1",
    main := "/base/" ++ name ++ "/main.sh", env := [],
    dependencies := declToDeps deps }

def pkgA : Package := mkPkg "a" ["b", "d"]
def pkgB : Package := mkPkg "b" ["c"]
def pkgC : Package := mkPkg "c" ["d"]
def pkgD : Package := mkPkg "d" []
def pkgZ : Package := mkPkg "z" []

/-- `PackageRepository::from_basedir`'s map construction: for each package, the
dependency vector is built by iterating the package's dependency `BTreeMap`
(ascending name order) and loading the sibling package of that name. -/
def buildRepo (pkgs : List Package) : PackageRepository :=
  ⟨pkgs.map fun p =>
    (p, p.dependencies.filterMap fun nv => pkgs.find? (fun q => q.name = nv.1))⟩

def simpleRepo : PackageRepository := buildRepo [pkgA, pkgB, pkgC, pkgD, pkgZ]

def mkRole (name : String) (deps : List Package) : Role :=
  { path := "/base/roles/" ++ name ++ ".toml", name := name,
    dependencies := deps, env := [] }

/-- The names of the executables a successful resolution emits. -/
def resolvedNames (repo : PackageRepository) (roles : List Role) :
    Option (List String) :=
  match resolve repo roles with
  | Except.ok exes => some (exes.map (·.name))
  | Except.error _ => none

/-- C1: in the repository where `a → [b,d]`, `b → [c]`, `c → [d]`, `d`, `z`
leaves, role `[a]` resolves to `[d, c, b, a]`; role `[a, z]` to
`[d, c, b, a, z]`; role `[a, c]` to `[d, c, b, a]` with `c` emitted once. -/
theorem resolve_simple_emission_contract :
    resolvedNames simpleRepo [mkRole "foo" [pkgA]] = some ["d", "c", "b", "a"] ∧
    resolvedNames simpleRepo [mkRole "foo" [pkgA, pkgZ]] =
      some ["d", "c", "b", "a", "z"] ∧
    resolvedNames simpleRepo [mkRole "foo" [pkgA, pkgC]] =
      some ["d", "c", "b", "a"] := by
  refine ⟨?_, ?_, ?_⟩ <;> rfl

/-! ## Environment composition (`Executable::from_role_and_package`) -/

theorem btLookup_of_not_mem (l : List (String × String)) (k : String)
    (h : k ∉ l.map Prod.fst) : btLookup l k = none := by
  induction l with
  | nil => rfl
  | cons hd tl ih =>
    simp only [List.map_cons, List.mem_cons, not_or] at h
    simp [btLookup, h.1, ih h.2]

theorem btLookup_insert (e : List (String × String)) (k0 v0 k : String) :
    btLookup (btInsert e k0 v0) k = if k = k0 then some v0 else btLookup e k := by
  induction e with
  | nil => simp [btInsert, btLookup]
  | cons hd tl ih =>
    obtain ⟨k1, v1⟩ := hd
    simp only [btInsert]
    split
    · by_cases hk : k = k0 <;> simp [btLookup, hk]
    · split
      · next heq =>
        subst heq
        by_cases hk : k = k0 <;> simp [btLookup, hk]
      · next hlt heq =>
        by_cases hk : k = k1
        · subst hk
          have hne : ¬ k = k0 := fun h => heq h.symm
          simp [btLookup, hne]
        · simp [btLookup, hk, ih]

theorem btContains_insert (e : List (String × String)) (k0 v0 k : String) :
    btContains (btInsert e k0 v0) k = (k = k0 || btContains e k) := by
  by_cases hk : k = k0 <;> simp [btContains, btLookup_insert, hk]

/-- The environment-override fold of `Executable::from_role_and_package`,
characterised per key: starting from `e` and folding the role bindings `l`
(no duplicate keys in `l`), a key that `e` lacks stays absent; a key `e` has is
overridden exactly when `l` binds it. -/
theorem env_fold_lookup (l : List (String × String)) (e : List (String × String))
    (hl : (l.map Prod.fst).Nodup) (k : String) :
    btLookup (l.foldl
        (fun acc kv => if btContains acc kv.1 then btInsert acc kv.1 kv.2 else acc)
        e) k =
      match btLookup e k, btLookup l k with
      | some _, some rv => some rv
      | some pv, none => some pv
      | none, _ => none := by
  induction l generalizing e with
  | nil =>
    simp only [List.foldl_nil, btLookup]
    cases btLookup e k <;> rfl
  | cons hd tl ih =>
    obtain ⟨k0, v0⟩ := hd
    simp only [List.map_cons, List.nodup_cons] at hl
    obtain ⟨hk0, htl⟩ := hl
    simp only [List.foldl_cons]
    by_cases hc : btContains e k0
    · simp only [hc, if_pos]
      rw [ih _ htl]
      by_cases hk : k = k0
      · subst hk
        have hnone : btLookup tl k = none := btLookup_of_not_mem tl k hk0
        rw [btLookup_insert, if_pos rfl, hnone, btLookup, if_pos rfl]
        simp only [btContains] at hc
        rcases hv : btLookup e k with _ | pv
        · rw [hv] at hc; simp at hc
        · rfl
      · rw [btLookup_insert, if_neg hk]
        simp only [btLookup, hk, ite_false]
    · simp only [hc, if_neg, Bool.false_eq_true, ite_false]
      rw [ih _ htl]
      by_cases hk : k = k0
      · subst hk
        simp only [btContains] at hc
        rcases hv : btLookup e k with _ | pv
        · rfl
        · rw [hv] at hc; simp at hc
      · simp only [btLookup, hk, ite_false]

/-- C4: the Executable's env is the Package's env with each key present in
both overwritten by the Role's value; keys only in the Role's env are absent;
keys only in the Package's env keep the Package's value. -/
theorem executable_env_override (role : Role) (package : Package)
    (hr : (role.env.map Prod.fst).Nodup) (k : String) :
    btLookup (Executable.fromRoleAndPackage role package).env k =
      match btLookup package.env k, btLookup role.env k with
      | some _, some rv => some rv
      | some pv, none => some pv
      | none, _ => none := by
  unfold Executable.fromRoleAndPackage
  exact env_fold_lookup role.env package.env hr k

def pkgHasEnv : Package :=
  { dir := "/base/has_env", name := "has_env", version := "1",
    main := "/base/has_env/main.sh",
    env := [("BAR", "bar from package"), ("FOO", "foo from package")],
    dependencies := [] }

def roleOverride : Role :=
  { path := "/base/roles/foo.toml", name := "foo", dependencies := [pkgHasEnv],
    env := [("BAZ", "baz from role"), ("FOO", "foo from role")] }

theorem executable_env_override_witness :
    ((roleOverride.env.map Prod.fst).Nodup ∧
      btLookup (Executable.fromRoleAndPackage roleOverride pkgHasEnv).env "FOO" =
        match btLookup pkgHasEnv.env "FOO", btLookup roleOverride.env "FOO" with
        | some _, some rv => some rv
        | some pv, none => some pv
        | none, _ => none) ∧
    ((roleOverride.env.map Prod.fst).Nodup ∧
      btLookup (Executable.fromRoleAndPackage roleOverride pkgHasEnv).env "BAZ" =
        match btLookup pkgHasEnv.env "BAZ", btLookup roleOverride.env "BAZ" with
        | some _, some rv => some rv
        | some pv, none => some pv
        | none, _ => none) :=
  ⟨⟨by decide, executable_env_override roleOverride pkgHasEnv (by decide) "FOO"⟩,
   ⟨by decide, executable_env_override roleOverride pkgHasEnv (by decide) "BAZ"⟩⟩

/-! ## Declared dependency order vs the stored `BTreeMap` order -/

theorem strLt_iff {a b : String} : strLt a b = true ↔ a.data < b.data := by
  simp [strLt]

theorem string_data_inj {a b : String} (h : a.data = b.data) : a = b := by
  cases a; cases b; exact congrArg String.mk h

theorem strLt_trans {a b c : String} (h1 : strLt a b = true)
    (h2 : strLt b c = true) : strLt a c = true := by
  rw [strLt_iff] at h1 h2 ⊢
  exact lt_trans h1 h2

theorem strLt_of_not_of_ne {a b : String} (h1 : ¬ strLt a b = true)
    (h2 : a ≠ b) : strLt b a = true := by
  rw [strLt_iff] at h1 ⊢
  rcases lt_trichotomy b.data a.data with h | h | h
  · exact h
  · exact absurd (string_data_inj h).symm h2
  · exact absurd h h1

/-- Strict ascending key order, the order a `BTreeMap` iterates in. -/
abbrev KeySorted (l : List (String × String)) : Prop :=
  l.Pairwise (fun a b => strLt a.1 b.1 = true)

theorem mem_keys_btInsert (l : List (String × String)) (k v x : String) :
    x ∈ (btInsert l k v).map Prod.fst ↔ x = k ∨ x ∈ l.map Prod.fst := by
  induction l with
  | nil => simp [btInsert]
  | cons hd tl ih =>
    obtain ⟨k1, v1⟩ := hd
    simp only [btInsert]
    split
    · simp [or_comm, or_assoc, or_left_comm]
    · split
      · next heq => subst heq; simp [or_assoc]
      · simp only [List.map_cons, List.mem_cons, ih]
        tauto

theorem keySorted_btInsert (l : List (String × String)) (k v : String)
    (h : KeySorted l) : KeySorted (btInsert l k v) := by
  induction l with
  | nil => simp [btInsert, KeySorted]
  | cons hd tl ih =>
    obtain ⟨k1, v1⟩ := hd
    obtain ⟨h1, h2⟩ := List.pairwise_cons.mp h
    simp only [btInsert]
    split
    · next hlt =>
      refine List.Pairwise.cons ?_ h
      intro x hx
      rcases List.mem_cons.mp hx with rfl | hx
      · exact hlt
      · exact strLt_trans hlt (h1 x hx)
    · split
      · next heq =>
        exact List.Pairwise.cons (fun x hx => heq ▸ h1 x hx) h2
      · next hlt heq =>
        refine List.Pairwise.cons ?_ (ih h2)
        intro x hx
        have hx' : x.1 ∈ (btInsert tl k v).map Prod.fst :=
          List.mem_map.mpr ⟨x, hx, rfl⟩
        rcases (mem_keys_btInsert tl k v x.1).mp hx' with hxk | hxtl
        · rw [hxk]
          exact strLt_of_not_of_ne hlt (fun hh => heq hh)
        · obtain ⟨y, hy, hyx⟩ := List.mem_map.mp hxtl
          have hres := h1 y hy
          rw [hyx] at hres
          exact hres

theorem btInsert_val (l : List (String × String)) (k v : String)
    (kv : String × String) (h : kv ∈ btInsert l k v) : kv.2 = v ∨ kv ∈ l := by
  induction l with
  | nil => simp only [btInsert, List.mem_singleton] at h; left; rw [h]
  | cons hd tl ih =>
    obtain ⟨k1, v1⟩ := hd
    simp only [btInsert] at h
    split at h
    · rcases List.mem_cons.mp h with rfl | h
      · left; rfl
      · right; exact h
    · split at h
      · rcases List.mem_cons.mp h with rfl | h
        · left; rfl
        · right; exact List.mem_cons_of_mem _ h
      · rcases List.mem_cons.mp h with rfl | h
        · right; exact List.mem_cons_self _ _
        · rcases ih h with hv | hmem
          · left; exact hv
          · right; exact List.mem_cons_of_mem _ hmem

theorem declToDeps_fold_props (names : List String)
    (acc : List (String × String)) (hacc : KeySorted acc) :
    KeySorted (names.foldl (fun m n => btInsert m n "local") acc) ∧
    (∀ k, k ∈ (names.foldl (fun m n => btInsert m n "local") acc).map Prod.fst ↔
      k ∈ names ∨ k ∈ acc.map Prod.fst) ∧
    (∀ kv ∈ names.foldl (fun m n => btInsert m n "local") acc,
      kv.2 = "local" ∨ kv ∈ acc) := by
  induction names generalizing acc with
  | nil => exact ⟨hacc, fun k => by simp, fun kv h => Or.inr h⟩
  | cons n tl ih =>
    simp only [List.foldl_cons]
    obtain ⟨i1, i2, i3⟩ := ih (btInsert acc n "local") (keySorted_btInsert acc n "local" hacc)
    refine ⟨i1, fun k => ?_, fun kv h => ?_⟩
    · rw [i2 k, mem_keys_btInsert]
      simp only [List.mem_cons]
      tauto
    · rcases i3 kv h with hv | hmem
      · exact Or.inl hv
      · rcases btInsert_val acc n "local" kv hmem with hv | hmem2
        · exact Or.inl hv
        · exact Or.inr hmem2

/-- C2 counterexample: a manifest declaring `dependencies = ["z", "b"]` is
stored as the name sequence `["b", "z"]` — not the declared order. -/
theorem declared_order_not_preserved :
    (declToDeps ["z", "b"]).map Prod.fst = ["b", "z"] ∧
    (["b", "z"] : List String) ≠ ["z", "b"] := by
  constructor
  · rfl
  · decide

/-- C2 amended: the dependency sequence `Package::from_file` stores (and the
repository hands to the resolver) is the declared names deduplicated and in
ascending lexicographic order — the `BTreeMap` iteration order — with every
name paired with the literal version `"local"`. -/
theorem declToDeps_sorted_names (names : List String) :
    KeySorted (declToDeps names) ∧
    (∀ k, k ∈ (declToDeps names).map Prod.fst ↔ k ∈ names) ∧
    (∀ kv ∈ declToDeps names, kv.2 = "local") := by
  obtain ⟨h1, h2, h3⟩ := declToDeps_fold_props names [] (by simp [KeySorted])
  refine ⟨h1, fun k => ?_, fun kv h => ?_⟩
  · rw [declToDeps, h2 k]
    simp
  · rcases h3 kv h with hv | hmem
    · exact hv
    · simp at hmem

theorem declToDeps_sorted_names_witness :
    ((declToDeps ["z", "b", "z"]).map Prod.fst = ["b", "z"]) ∧
    (("z" ∈ (declToDeps ["z", "b", "z"]).map Prod.fst) ↔
      "z" ∈ (["z", "b", "z"] : List String)) :=
  ⟨by rfl, (declToDeps_sorted_names ["z", "b", "z"]).2.1 "z"⟩

/-! ## `RunList::from_archive`: the `archive.roles` extraction

A small model of parsed TOML values, with the dotted-path `Value::lookup` the
code uses.  File reading and the TOML text parse are the external `toml`
crate; `archiveRoles` starts from the already-parsed value, exactly mirroring
the `match` cascade of `runlist.rs` lines 260-283. -/

inductive Toml where
  | str (s : String)
  | int (n : Int)
  | boolean (b : Bool)
  | arr (elems : List Toml)
  | table (entries : List (String × Toml))
deriving Repr

/-- `toml::Value::lookup` applied to an already-split dotted path: descend
through tables by key. -/
def lookupPath : Toml → List String → Option Toml
  | t, [] => some t
  | Toml.table es, k :: rest =>
    match es.find? (fun e => e.1 = k) with
    | some e => lookupPath e.2 rest
    | none => none
  | _, _ :: _ => none

/-- `Value::as_slice`. -/
def Toml.asSlice : Toml → Option (List Toml)
  | Toml.arr elems => some elems
  | _ => none

/-- `Value::as_str`. -/
def Toml.asStr : Toml → Option String
  | Toml.str s => some s
  | _ => none

/-- The element loop of `from_archive`: each entry of the `roles` array must
be a string. -/
def collectRoleNames : List Toml → Except String (List String)
  | [] => Except.ok []
  | t :: rest =>
    match t.asStr with
    | some s => (collectRoleNames rest).map (fun v => s :: v)
    | none => Except.error "`roles` isn't an array of strings."

/-- The `archive.roles` extraction of `RunList::from_archive` (`runlist.rs`
lines 260-283): a missing key defaults to no roles; a present key must be an
array of strings. -/
def archiveRoles (archive : Toml) : Except String (List String) :=
  match lookupPath archive ["archive", "roles"] with
  | some roles =>
    match roles.asSlice with
    | some slice => collectRoleNames slice
    | none => Except.error "`roles` key isn't an array."
  | none => Except.ok []

theorem fuelBound_pos (repo : PackageRepository) (roles : List Role) :
    0 < fuelBound repo roles := by
  simp only [fuelBound]
  omega

theorem collectRoleNames_err (elems : List Toml) (x : Toml) (hx : x ∈ elems)
    (hs : x.asStr = none) :
    collectRoleNames elems = Except.error "`roles` isn't an array of strings." := by
  induction elems with
  | nil => cases hx
  | cons hd tl ih =>
    rcases List.mem_cons.mp hx with rfl | hx
    · simp [collectRoleNames, hs]
    · simp only [collectRoleNames]
      cases hhd : hd.asStr with
      | none => rfl
      | some s => simp [ih hx, Except.map]

/-- C10: when the parsed `archive.toml` has no `archive.roles` key,
`from_archive` proceeds with an empty role list (and resolving no roles yields
no executables); an `archive.roles` that is present but not an array, or an
array containing a non-string, is an error. -/
theorem from_archive_roles_default (t : Toml) (repo : PackageRepository) :
    (lookupPath t ["archive", "roles"] = none →
      archiveRoles t = Except.ok [] ∧
      resolve repo [] = Except.ok []) ∧
    (∀ v, lookupPath t ["archive", "roles"] = some v → v.asSlice = none →
      archiveRoles t = Except.error "`roles` key isn't an array.") ∧
    (∀ elems x, lookupPath t ["archive", "roles"] = some (Toml.arr elems) →
      x ∈ elems → x.asStr = none →
      archiveRoles t = Except.error "`roles` isn't an array of strings.") := by
  refine ⟨fun h => ⟨by simp [archiveRoles, h], ?_⟩, fun v hv hs => ?_, fun elems x hv hx hs => ?_⟩
  · rcases hf : fuelBound repo [] with _ | n
    · exact absurd hf (Nat.pos_iff_ne_zero.mp (fuelBound_pos repo []) )
    · simp [resolve, resolvePairs, hf, resolveLoop, step, initState]
  · simp [archiveRoles, hv, hs]
  · simp [archiveRoles, hv, Toml.asSlice, collectRoleNames_err elems x hx hs]

theorem from_archive_roles_default_witness :
    (lookupPath (Toml.table [("archive", Toml.table [])]) ["archive", "roles"] = none →
      archiveRoles (Toml.table [("archive", Toml.table [])]) = Except.ok [] ∧
      resolve simpleRepo [] = Except.ok []) ∧
    (lookupPath (Toml.table [("archive", Toml.table [])]) ["archive", "roles"] = none) ∧
    (archiveRoles
        (Toml.table [("archive", Toml.table [("roles", Toml.int 3)])]) =
      Except.error "`roles` key isn't an array.") ∧
    (archiveRoles
        (Toml.table [("archive", Toml.table [("roles", Toml.arr [Toml.int 3])])]) =
      Except.error "`roles` isn't an array of strings.") :=
  ⟨(from_archive_roles_default (Toml.table [("archive", Toml.table [])]) simpleRepo).1,
   by rfl,
   (from_archive_roles_default
      (Toml.table [("archive", Toml.table [("roles", Toml.int 3)])]) simpleRepo).2.1
      (Toml.int 3) (by rfl) (by rfl),
   (from_archive_roles_default
      (Toml.table [("archive", Toml.table [("roles", Toml.arr [Toml.int 3])])])
      simpleRepo).2.2 [Toml.int 3] (Toml.int 3) (by rfl) (by simp) (by rfl)⟩

/-! ## Base64 (the `rustc_serialize` codec, STANDARD configuration)

`to_base64`/`from_base64` are the external `rustc_serialize::base64`
implementation the seed file, the archive writer and the archive reader all
rely on; they are embedded here byte-for-byte from that library's algorithm
(3-byte groups to 4 characters with `=` padding; the decoder's running
32-bit `buf`/`modulus` state machine). -/

theorem lor_disjoint {k a b : Nat} (ha : a % 2 ^ k = 0) (hb : b < 2 ^ k) :
    a ||| b = a + b := by
  obtain ⟨q, rfl⟩ : ∃ q, a = 2 ^ k * q :=
    ⟨a / 2 ^ k, (Nat.mul_div_cancel' (Nat.dvd_of_mod_eq_zero ha)).symm⟩
  apply Nat.eq_of_testBit_eq
  intro i
  rw [Nat.testBit_lor]
  simp only [Nat.testBit_to_div_mod]
  rw [← Bool.decide_or, decide_eq_decide]
  rcases Nat.lt_or_ge i k with h | h
  · have hk : 2 ^ k = 2 ^ i * (2 * 2 ^ (k - i - 1)) := by
      rw [← pow_succ']
      rw [← pow_add]
      congr 1
      omega
    have hpos : 0 < 2 ^ i := Nat.pos_pow_of_pos i (by norm_num)
    rw [hk, mul_assoc, Nat.mul_div_cancel_left _ hpos,
      add_comm, Nat.add_mul_div_left _ _ hpos]
    have hrw : 2 * 2 ^ (k - i - 1) * q = 2 * (2 ^ (k - i - 1) * q) := by ring
    rw [hrw]
    generalize (2 ^ (k - i - 1) * q) = m
    generalize (b / 2 ^ i) = c
    omega
  · have hib : 2 ^ i = 2 ^ k * 2 ^ (i - k) := by
      rw [← pow_add]
      congr 1
      omega
    have hpos : 0 < 2 ^ k := Nat.pos_pow_of_pos k (by norm_num)
    rw [hib, ← Nat.div_div_eq_div_mul, ← Nat.div_div_eq_div_mul,
      ← Nat.div_div_eq_div_mul, Nat.mul_div_cancel_left _ hpos]
    have h1 : b / 2 ^ k = 0 := Nat.div_eq_of_lt hb
    have h2 : (2 ^ k * q + b) / 2 ^ k = q := by
      rw [add_comm, Nat.add_mul_div_left _ _ hpos, h1, Nat.zero_add]
    rw [h1, h2]
    simp

/-- The STANDARD charset
`ABCDEFGHIJKLMNOPQRSTUVWXYZabcdefghijklmnopqrstuvwxyz0123456789+/`: the ASCII
code of the character at index `v`. -/
def b64Char (v : Nat) : Nat :=
  if v < 26 then 65 + v
  else if v < 52 then 97 + (v - 26)
  else if v < 62 then 48 + (v - 52)
  else if v = 62 then 43
  else 47

/-- `to_base64` with the STANDARD config (pad, no line wrap): 3-byte groups
become 4 characters; a 1-byte leftover becomes 2 characters and `==`; a 2-byte
leftover becomes 3 characters and `=`. -/
def toBase64 : List Nat → List Nat
  | b1 :: b2 :: b3 :: tl =>
    b64Char ((((b1 <<< 16) ||| (b2 <<< 8) ||| b3) >>> 18) &&& 63) ::
    b64Char ((((b1 <<< 16) ||| (b2 <<< 8) ||| b3) >>> 12) &&& 63) ::
    b64Char ((((b1 <<< 16) ||| (b2 <<< 8) ||| b3) >>> 6) &&& 63) ::
    b64Char (((b1 <<< 16) ||| (b2 <<< 8) ||| b3) &&& 63) :: toBase64 tl
  | [b1, b2] =>
    [b64Char ((((b1 <<< 16) ||| (b2 <<< 8)) >>> 18) &&& 63),
     b64Char ((((b1 <<< 16) ||| (b2 <<< 8)) >>> 12) &&& 63),
     b64Char ((((b1 <<< 16) ||| (b2 <<< 8)) >>> 6) &&& 63), 61]
  | [b1] =>
    [b64Char (((b1 <<< 16) >>> 18) &&& 63),
     b64Char (((b1 <<< 16) >>> 12) &&& 63), 61, 61]
  | [] => []

/-- The per-character value of `from_base64`'s `match` arms (the alphabet
arms only; `=`, `\r`, `\n` and the error case are handled by the loop). -/
def b64Decode1 (c : Nat) : Option Nat :=
  if 65 ≤ c ∧ c ≤ 90 then some (c - 65)
  else if 97 ≤ c ∧ c ≤ 122 then some (c - 71)
  else if 48 ≤ c ∧ c ≤ 57 then some (c + 4)
  else if c = 43 ∨ c = 45 then some 62
  else if c = 47 ∨ c = 95 then some 63
  else none

/-- After `from_base64` breaks at `=`, the remaining bytes may only be `=`,
`\r` or `\n`. -/
def b64TailOk : List Nat → Bool
  | [] => true
  | c :: rest => if c = 61 ∨ c = 13 ∨ c = 10 then b64TailOk rest else false

/-- `from_base64`'s post-loop handling of the leftover `modulus`:
2 characters yield one byte, 3 characters two bytes; a leftover of 1 is an
invalid length. -/
def b64Finish (buf modulus : Nat) (acc : List Nat) : Option (List Nat) :=
  match modulus with
  | 0 => some acc
  | 2 => some (acc ++ [(buf >>> 10) % 256])
  | 3 => some (acc ++ [(buf >>> 16) % 256, (buf >>> 8) % 256])
  | _ => none

/-- The decoding loop of `from_base64`: `buf` is the running `u32`
(`buf |= val; buf <<= 6;` wrapping mod `2^32`), `modulus` counts characters in
the current group, and every 4th character flushes three bytes
(`(buf >> 22) as u8`, `(buf >> 14) as u8`, `(buf >> 6) as u8`). -/
def b64Loop : List Nat → Nat → Nat → List Nat → Option (List Nat)
  | [], buf, modulus, acc => b64Finish buf modulus acc
  | c :: rest, buf, modulus, acc =>
    if c = 13 ∨ c = 10 then b64Loop rest buf modulus acc
    else if c = 61 then
      if b64TailOk rest then b64Finish buf modulus acc else none
    else
      match b64Decode1 c with
      | some v =>
        if modulus + 1 = 4 then
          b64Loop rest (((buf ||| v) <<< 6) % 4294967296) 0
            (acc ++ [((((buf ||| v) <<< 6) % 4294967296) >>> 22) % 256,
                     ((((buf ||| v) <<< 6) % 4294967296) >>> 14) % 256,
                     ((((buf ||| v) <<< 6) % 4294967296) >>> 6) % 256])
        else b64Loop rest (((buf ||| v) <<< 6) % 4294967296) (modulus + 1) acc
      | none => none

/-- `from_base64` (collapsing the library's error detail to `none`). -/
def fromBase64 (cs : List Nat) : Option (List Nat) :=
  b64Loop cs 0 0 []

theorem nat_and_63 (n : Nat) : n &&& 63 = n % 64 := by
  have h := Nat.and_pow_two_sub_one_eq_mod n 6
  norm_num at h
  exact h

/-- The three special bytes never appear as alphabet characters, and decoding
inverts `b64Char` on 6-bit values. -/
theorem b64Char_props : ∀ v < 64, ¬(b64Char v = 13 ∨ b64Char v = 10) ∧
    b64Char v ≠ 61 ∧ b64Decode1 (b64Char v) = some v := by decide


theorem lor_small {buf v : Nat} (hbuf : buf % 64 = 0) (hv : v < 64) :
    buf ||| v = buf + v :=
  @lor_disjoint 6 _ _ (by simpa using hbuf) (by simpa using hv)

theorem shl6_eq (n : Nat) : n <<< 6 = n * 64 := by
  have h := Nat.shiftLeft_eq n 6
  norm_num at h
  exact h

/-- The decoder's buffer update `buf = (buf | val) << 6` on `u32`, rephrased
additively (valid while the low 6 bits of `buf` are clear). -/
def b64Mix (buf v : Nat) : Nat := (buf + v) * 64 % 4294967296

theorem b64Mix_eq {buf v : Nat} (hbuf : buf % 64 = 0) (hv : v < 64) :
    ((buf ||| v) <<< 6) % 4294967296 = b64Mix buf v := by
  rw [lor_small hbuf hv, shl6_eq, b64Mix]

theorem b64Mix_mod (buf v : Nat) : b64Mix buf v % 64 = 0 := by
  rw [b64Mix]
  omega

theorem shr22_eq (n : Nat) : n >>> 22 = n / 4194304 := by
  have h := Nat.shiftRight_eq_div_pow n 22
  norm_num at h
  exact h

theorem shr14_eq (n : Nat) : n >>> 14 = n / 16384 := by
  have h := Nat.shiftRight_eq_div_pow n 14
  norm_num at h
  exact h

theorem shr6_eq (n : Nat) : n >>> 6 = n / 64 := by
  have h := Nat.shiftRight_eq_div_pow n 6
  norm_num at h
  exact h

/-- One 4-character alphabet group of the decoding loop. -/
theorem b64Loop_step4 (v1 v2 v3 v4 : Nat) (hv1 : v1 < 64) (hv2 : v2 < 64)
    (hv3 : v3 < 64) (hv4 : v4 < 64) (rest : List Nat) (buf : Nat)
    (hbuf : buf % 64 = 0) (acc : List Nat) :
    b64Loop (b64Char v1 :: b64Char v2 :: b64Char v3 :: b64Char v4 :: rest)
        buf 0 acc =
      b64Loop rest (b64Mix (b64Mix (b64Mix (b64Mix buf v1) v2) v3) v4) 0
        (acc ++
          [b64Mix (b64Mix (b64Mix (b64Mix buf v1) v2) v3) v4 / 4194304 % 256,
           b64Mix (b64Mix (b64Mix (b64Mix buf v1) v2) v3) v4 / 16384 % 256,
           b64Mix (b64Mix (b64Mix (b64Mix buf v1) v2) v3) v4 / 64 % 256]) := by
  obtain ⟨hA1, hB1, hC1⟩ := b64Char_props v1 hv1
  obtain ⟨hA2, hB2, hC2⟩ := b64Char_props v2 hv2
  obtain ⟨hA3, hB3, hC3⟩ := b64Char_props v3 hv3
  obtain ⟨hA4, hB4, hC4⟩ := b64Char_props v4 hv4
  simp [b64Loop, hA1, hB1, hC1, hA2, hB2, hC2, hA3, hB3, hC3, hA4, hB4, hC4,
    b64Mix_eq hbuf hv1, b64Mix_eq (b64Mix_mod buf v1) hv2,
    b64Mix_eq (b64Mix_mod (b64Mix buf v1) v2) hv3,
    b64Mix_eq (b64Mix_mod (b64Mix (b64Mix buf v1) v2) v3) hv4,
    shr22_eq, shr14_eq, shr6_eq]

theorem shr10_eq (n : Nat) : n >>> 10 = n / 1024 := by
  have h := Nat.shiftRight_eq_div_pow n 10
  norm_num at h
  exact h

theorem shr16_eq (n : Nat) : n >>> 16 = n / 65536 := by
  have h := Nat.shiftRight_eq_div_pow n 16
  norm_num at h
  exact h

theorem shr8_eq (n : Nat) : n >>> 8 = n / 256 := by
  have h := Nat.shiftRight_eq_div_pow n 8
  norm_num at h
  exact h

/-- A final 2-character group followed by `==`. -/
theorem b64Loop_pad1 (v1 v2 : Nat) (hv1 : v1 < 64) (hv2 : v2 < 64) (buf : Nat)
    (hbuf : buf % 64 = 0) (acc : List Nat) :
    b64Loop [b64Char v1, b64Char v2, 61, 61] buf 0 acc =
      some (acc ++ [b64Mix (b64Mix buf v1) v2 / 1024 % 256]) := by
  obtain ⟨hA1, hB1, hC1⟩ := b64Char_props v1 hv1
  obtain ⟨hA2, hB2, hC2⟩ := b64Char_props v2 hv2
  simp [b64Loop, hA1, hB1, hC1, hA2, hB2, hC2, b64TailOk, b64Finish,
    b64Mix_eq hbuf hv1, b64Mix_eq (b64Mix_mod buf v1) hv2, shr10_eq]

/-- A final 3-character group followed by `=`. -/
theorem b64Loop_pad2 (v1 v2 v3 : Nat) (hv1 : v1 < 64) (hv2 : v2 < 64)
    (hv3 : v3 < 64) (buf : Nat) (hbuf : buf % 64 = 0) (acc : List Nat) :
    b64Loop [b64Char v1, b64Char v2, b64Char v3, 61] buf 0 acc =
      some (acc ++ [b64Mix (b64Mix (b64Mix buf v1) v2) v3 / 65536 % 256,
                    b64Mix (b64Mix (b64Mix buf v1) v2) v3 / 256 % 256]) := by
  obtain ⟨hA1, hB1, hC1⟩ := b64Char_props v1 hv1
  obtain ⟨hA2, hB2, hC2⟩ := b64Char_props v2 hv2
  obtain ⟨hA3, hB3, hC3⟩ := b64Char_props v3 hv3
  simp [b64Loop, hA1, hB1, hC1, hA2, hB2, hC2, hA3, hB3, hC3, b64TailOk,
    b64Finish, b64Mix_eq hbuf hv1, b64Mix_eq (b64Mix_mod buf v1) hv2,
    b64Mix_eq (b64Mix_mod (b64Mix buf v1) v2) hv3, shr16_eq, shr8_eq]

theorem shl16_eq (n : Nat) : n <<< 16 = n * 65536 := by
  have h := Nat.shiftLeft_eq n 16
  norm_num at h
  exact h

theorem shl8_eq (n : Nat) : n <<< 8 = n * 256 := by
  have h := Nat.shiftLeft_eq n 8
  norm_num at h
  exact h

theorem twoByte_lor (b1 : Nat) {b2 : Nat} (h2 : b2 < 256) :
    (b1 <<< 16) ||| (b2 <<< 8) = b1 * 65536 + b2 * 256 := by
  rw [shl16_eq, shl8_eq]
  exact @lor_disjoint 16 _ _ (by norm_num [Nat.mul_mod_left])
    (by norm_num; omega)

theorem threeByte_lor (b1 : Nat) {b2 b3 : Nat} (h2 : b2 < 256) (h3 : b3 < 256) :
    (b1 <<< 16) ||| (b2 <<< 8) ||| b3 = b1 * 65536 + b2 * 256 + b3 := by
  rw [twoByte_lor b1 h2]
  exact @lor_disjoint 8 _ _ (by norm_num; omega) (by norm_num; omega)

theorem shr18_eq (n : Nat) : n >>> 18 = n / 262144 := by
  have h := Nat.shiftRight_eq_div_pow n 18
  norm_num at h
  exact h

theorem shr12_eq (n : Nat) : n >>> 12 = n / 4096 := by
  have h := Nat.shiftRight_eq_div_pow n 12
  norm_num at h
  exact h

theorem toBase64_three (b1 : Nat) {b2 b3 : Nat} (tl : List Nat)
    (h2 : b2 < 256) (h3 : b3 < 256) :
    toBase64 (b1 :: b2 :: b3 :: tl) =
      b64Char ((b1 * 65536 + b2 * 256 + b3) / 262144 % 64) ::
      b64Char ((b1 * 65536 + b2 * 256 + b3) / 4096 % 64) ::
      b64Char ((b1 * 65536 + b2 * 256 + b3) / 64 % 64) ::
      b64Char ((b1 * 65536 + b2 * 256 + b3) % 64) :: toBase64 tl := by
  simp only [toBase64, threeByte_lor b1 h2 h3, shr18_eq, shr12_eq, shr6_eq,
    nat_and_63]

theorem toBase64_one (b1 : Nat) :
    toBase64 [b1] =
      [b64Char (b1 * 65536 / 262144 % 64), b64Char (b1 * 65536 / 4096 % 64),
       61, 61] := by
  simp only [toBase64, shl16_eq, shr18_eq, shr12_eq, nat_and_63]

theorem toBase64_two (b1 : Nat) {b2 : Nat} (h2 : b2 < 256) :
    toBase64 [b1, b2] =
      [b64Char ((b1 * 65536 + b2 * 256) / 262144 % 64),
       b64Char ((b1 * 65536 + b2 * 256) / 4096 % 64),
       b64Char ((b1 * 65536 + b2 * 256) / 64 % 64), 61] := by
  simp only [toBase64, twoByte_lor b1 h2, shr18_eq, shr12_eq, shr6_eq,
    nat_and_63]

/-- Decoding an encoding, from any decoder state with the low six buffer bits
clear, appends exactly the original bytes. -/
theorem b64_roundtrip : ∀ (bs : List Nat), (∀ b ∈ bs, b < 256) →
    ∀ (buf : Nat), buf % 64 = 0 → ∀ acc : List Nat,
    b64Loop (toBase64 bs) buf 0 acc = some (acc ++ bs)
  | [], _, buf, hbuf, acc => by simp [toBase64, b64Loop, b64Finish]
  | [b1], hb, buf, hbuf, acc => by
    have h1 : b1 < 256 := hb b1 (by simp)
    rw [toBase64_one]
    rw [b64Loop_pad1 _ _ (Nat.mod_lt _ (by norm_num)) (Nat.mod_lt _ (by norm_num))
      buf hbuf acc]
    have he : b64Mix (b64Mix buf (b1 * 65536 / 262144 % 64))
        (b1 * 65536 / 4096 % 64) / 1024 % 256 = b1 := by
      simp only [b64Mix]
      omega
    rw [he]
  | [b1, b2], hb, buf, hbuf, acc => by
    have h1 : b1 < 256 := hb b1 (by simp)
    have h2 : b2 < 256 := hb b2 (by simp)
    rw [toBase64_two b1 h2]
    rw [b64Loop_pad2 _ _ _ (Nat.mod_lt _ (by norm_num))
      (Nat.mod_lt _ (by norm_num)) (Nat.mod_lt _ (by norm_num)) buf hbuf acc]
    have he1 : b64Mix (b64Mix (b64Mix buf ((b1 * 65536 + b2 * 256) / 262144 % 64))
        ((b1 * 65536 + b2 * 256) / 4096 % 64))
        ((b1 * 65536 + b2 * 256) / 64 % 64) / 65536 % 256 = b1 := by
      simp only [b64Mix]
      omega
    have he2 : b64Mix (b64Mix (b64Mix buf ((b1 * 65536 + b2 * 256) / 262144 % 64))
        ((b1 * 65536 + b2 * 256) / 4096 % 64))
        ((b1 * 65536 + b2 * 256) / 64 % 64) / 256 % 256 = b2 := by
      simp only [b64Mix]
      omega
    rw [he1, he2]
  | b1 :: b2 :: b3 :: tl, hb, buf, hbuf, acc => by
    have h1 : b1 < 256 := hb b1 (by simp)
    have h2 : b2 < 256 := hb b2 (by simp)
    have h3 : b3 < 256 := hb b3 (by simp)
    rw [toBase64_three b1 tl h2 h3]
    rw [b64Loop_step4 _ _ _ _ (Nat.mod_lt _ (by norm_num))
      (Nat.mod_lt _ (by norm_num)) (Nat.mod_lt _ (by norm_num))
      (Nat.mod_lt _ (by norm_num)) (toBase64 tl) buf hbuf acc]
    have hp1 : b64Mix (b64Mix (b64Mix (b64Mix buf
        ((b1 * 65536 + b2 * 256 + b3) / 262144 % 64))
        ((b1 * 65536 + b2 * 256 + b3) / 4096 % 64))
        ((b1 * 65536 + b2 * 256 + b3) / 64 % 64))
        ((b1 * 65536 + b2 * 256 + b3) % 64) / 4194304 % 256 = b1 := by
      simp only [b64Mix]
      omega
    have hp2 : b64Mix (b64Mix (b64Mix (b64Mix buf
        ((b1 * 65536 + b2 * 256 + b3) / 262144 % 64))
        ((b1 * 65536 + b2 * 256 + b3) / 4096 % 64))
        ((b1 * 65536 + b2 * 256 + b3) / 64 % 64))
        ((b1 * 65536 + b2 * 256 + b3) % 64) / 16384 % 256 = b2 := by
      simp only [b64Mix]
      omega
    have hp3 : b64Mix (b64Mix (b64Mix (b64Mix buf
        ((b1 * 65536 + b2 * 256 + b3) / 262144 % 64))
        ((b1 * 65536 + b2 * 256 + b3) / 4096 % 64))
        ((b1 * 65536 + b2 * 256 + b3) / 64 % 64))
        ((b1 * 65536 + b2 * 256 + b3) % 64) / 64 % 256 = b3 := by
      simp only [b64Mix]
      omega
    rw [hp1, hp2, hp3]
    rw [b64_roundtrip tl (fun b hbm => hb b (by simp [hbm])) _
      (b64Mix_mod _ _) (acc ++ [b1, b2, b3])]
    simp

/-! ## `seedfile.rs`: the seed-file codec

`crc32` is the external `crc` crate's `crc32::checksum_ieee` (CRC-32/IEEE:
reflected polynomial `0xEDB88320`, initial value and final XOR
`0xFFFFFFFF`), embedded from that algorithm's definition.  Text is handled at
the byte level (`String` byte length and `split_at` in the Rust code are byte
operations); ASCII string literals are converted with `strBytes`. -/

def strBytes (s : String) : List Nat := s.data.map Char.toNat

/-- One bit step of CRC-32: shift right, conditionally XOR the reflected
polynomial. -/
def crc32Bit (crc : Nat) : Nat :=
  if crc % 2 = 1 then (crc / 2) ^^^ 3988292384 else crc / 2

/-- One byte of CRC-32: XOR the byte in, then eight bit steps. -/
def crc32Byte (crc b : Nat) : Nat :=
  crc32Bit (crc32Bit (crc32Bit (crc32Bit (crc32Bit (crc32Bit (crc32Bit
    (crc32Bit (crc ^^^ b))))))))

/-- `crc32::checksum_ieee`. -/
def crc32 (bytes : List Nat) : Nat :=
  (bytes.foldl crc32Byte 4294967295) ^^^ 4294967295

/-- `WriteBytesExt::write_u32::<BigEndian>`: the four big-endian bytes. -/
def u32BE (n : Nat) : List Nat :=
  [n / 16777216 % 256, n / 65536 % 256, n / 256 % 256, n % 256]

/-- `ReadBytesExt::read_u32::<BigEndian>`: consume four bytes (error when
fewer are available). -/
def readU32BE : List Nat → Option Nat
  | b0 :: b1 :: b2 :: b3 :: _ =>
    some (b0 * 16777216 + b1 * 65536 + b2 * 256 + b3)
  | _ => none

def topLine : List Nat :=
  strBytes "---------- THIS IS YOUR PRIVATE SEED FILE ----------"

def bottomLine : List Nat :=
  strBytes "------------- DO NOT SHARE IT PUBLICLY -------------"

/-- `SeedFile::to_string` (`seedfile.rs` lines 122-132): the three-line
document, the middle line being `base64(seed) ++ base64(crc32-BE)`. -/
def seedToString (seed : List Nat) : List Nat :=
  topLine ++ [10] ++ toBase64 seed ++ toBase64 (u32BE (crc32 seed)) ++ [10] ++
    bottomLine

/-- Split a byte stream at every `\n` (the newline bytes are consumed). -/
def splitNl : List Nat → List (List Nat)
  | [] => [[]]
  | c :: rest =>
    if c = 10 then [] :: splitNl rest
    else
      match splitNl rest with
      | [] => [[c]]
      | h :: t => (c :: h) :: t

/-- `BufRead::lines`: split at `\n`, drop a trailing empty segment (no final
line after a trailing newline or for empty input), strip one trailing `\r`
from each line. -/
def rustLines (bs : List Nat) : List (List Nat) :=
  let parts := splitNl bs
  let parts := if parts.getLast? = some [] then parts.dropLast else parts
  parts.map (fun l => if l.getLast? = some 13 then l.dropLast else l)

/-- Writing one byte of the decoded seed into `seedarray[i]`; `none` is the
out-of-bounds panic of Rust array indexing. -/
def setAt : List Nat → Nat → Nat → Option (List Nat)
  | [], _, _ => none
  | _ :: tl, 0, v => some (v :: tl)
  | h :: tl, i + 1, v => (setAt tl i v).map (fun l => h :: l)

/-- The copy loop `for (i, byte) in seedbuf.into_iter().enumerate()
\x7b seedarray[i] = byte; \x7d`. -/
def seedCopyAux : List Nat → Nat → List Nat → Option (List Nat)
  | [], _, arr => some arr
  | b :: rest, i, arr =>
    match setAt arr i b with
    | some arr2 => seedCopyAux rest (i + 1) arr2
    | none => none

/-- Copy the decoded bytes into the fresh `[0u8; sign::SEEDBYTES]` array. -/
def seedCopy (src : List Nat) : Option (List Nat) :=
  seedCopyAux src 0 (List.replicate 32 0)

/-- Outcome of `SeedFile::from_reader`: a decoded 32-byte seed, a typed error
(the message of `error.rs`), or the out-of-bounds panic of the copy loop. -/
inductive SeedDecode where
  | ok (seed : List Nat)
  | err (msg : String)
  | oob
deriving DecidableEq, Repr

/-- `SeedFile::from_reader` (`seedfile.rs` lines 26-113), on the raw bytes of
the input stream. -/
def fromReader (input : List Nat) : SeedDecode :=
  match rustLines input with
  | [top, middle, bottom] =>
    if top ≠ topLine then SeedDecode.err "Invalid Seedfile. Invalid line 1."
    else if bottom ≠ bottomLine then
      SeedDecode.err "Invalid Seedfile. Invalid line 3."
    else if middle.length ≠ 52 then
      SeedDecode.err "Invalid Seedfile. Line 2 too short."
    else
      match fromBase64 (middle.take 44) with
      | none => SeedDecode.err "Invalid Seedfile. Seed failed base64 decode."
      | some seedbuf =>
        match fromBase64 (middle.drop 44) with
        | none => SeedDecode.err "Invalid Seedfile. CRC failed base64 decode."
        | some crcbuf =>
          match readU32BE crcbuf with
          | none =>
            SeedDecode.err "Invalid Seedfile. CRC failed Big Endian decode."
          | some stored =>
            if stored ≠ crc32 seedbuf then
              SeedDecode.err "Invalid Seedfile. CRC does not match."
            else
              match seedCopy seedbuf with
              | some arr => SeedDecode.ok arr
              | none => SeedDecode.oob
  | _ => SeedDecode.err "Invalid Seedfile. Not 3 lines."

/-! ### Seed-file round-trip -/

theorem b64Char_gt42 (v : Nat) : 42 < b64Char v := by
  simp only [b64Char]
  split
  · omega
  · split
    · omega
    · split
      · omega
      · split <;> omega

theorem toBase64_gt42 : ∀ (bs : List Nat), ∀ c ∈ toBase64 bs, 42 < c
  | [] => by simp [toBase64]
  | [b1] => by
    intro c hc
    simp only [toBase64, List.mem_cons, List.not_mem_nil, or_false] at hc
    rcases hc with rfl | rfl | rfl | rfl
    · exact b64Char_gt42 _
    · exact b64Char_gt42 _
    · omega
    · omega
  | [b1, b2] => by
    intro c hc
    simp only [toBase64, List.mem_cons, List.not_mem_nil, or_false] at hc
    rcases hc with rfl | rfl | rfl | rfl
    · exact b64Char_gt42 _
    · exact b64Char_gt42 _
    · exact b64Char_gt42 _
    · omega
  | b1 :: b2 :: b3 :: tl => by
    intro c hc
    simp only [toBase64, List.mem_cons] at hc
    rcases hc with rfl | rfl | rfl | rfl | h
    · exact b64Char_gt42 _
    · exact b64Char_gt42 _
    · exact b64Char_gt42 _
    · exact b64Char_gt42 _
    · exact toBase64_gt42 tl c h

theorem toBase64_length : ∀ (bs : List Nat),
    (toBase64 bs).length = (bs.length + 2) / 3 * 4
  | [] => by simp [toBase64]
  | [b1] => by simp [toBase64]
  | [b1, b2] => by simp [toBase64]
  | b1 :: b2 :: b3 :: tl => by
    simp only [toBase64, List.length_cons, toBase64_length tl]
    omega

theorem splitNl_no10 : ∀ (a : List Nat), (∀ c ∈ a, c ≠ 10) → splitNl a = [a]
  | [], _ => rfl
  | c :: rest, h => by
    have hc : c ≠ 10 := h c (by simp)
    simp only [splitNl, hc, if_neg, ite_false]
    rw [splitNl_no10 rest (fun x hx => h x (by simp [hx]))]

theorem splitNl_append10 : ∀ (a b : List Nat), (∀ c ∈ a, c ≠ 10) →
    splitNl (a ++ 10 :: b) = a :: splitNl b
  | [], b, _ => by simp [splitNl]
  | c :: rest, b, h => by
    have hc : c ≠ 10 := h c (by simp)
    simp only [List.cons_append, splitNl, hc, if_neg, ite_false, List.append_eq]
    rw [splitNl_append10 rest b (fun x hx => h x (by simp [hx]))]

theorem seedMid_gt42 (seed : List Nat) :
    ∀ c ∈ toBase64 seed ++ toBase64 (u32BE (crc32 seed)), 42 < c := by
  intro c hc
  rcases List.mem_append.mp hc with h | h
  · exact toBase64_gt42 seed c h
  · exact toBase64_gt42 _ c h

/-- The three lines of an encoded seed file, as `BufRead::lines` yields them. -/
theorem rustLines_seedToString (seed : List Nat) :
    rustLines (seedToString seed) =
      [topLine, toBase64 seed ++ toBase64 (u32BE (crc32 seed)), bottomLine] := by
  have hmid := seedMid_gt42 seed
  have htop : ∀ c ∈ topLine, c ≠ 10 := by decide
  have hbot : ∀ c ∈ bottomLine, c ≠ 10 := by decide
  have h1 : seedToString seed =
      topLine ++ 10 :: ((toBase64 seed ++ toBase64 (u32BE (crc32 seed))) ++
        10 :: bottomLine) := by
    simp [seedToString]
  have hsplit : splitNl (seedToString seed) =
      [topLine, toBase64 seed ++ toBase64 (u32BE (crc32 seed)), bottomLine] := by
    rw [h1, splitNl_append10 _ _ htop,
      splitNl_append10 _ _ (fun c hc => by have := hmid c hc; omega),
      splitNl_no10 _ hbot]
  simp only [rustLines, hsplit]
  have hbne : ¬ (([topLine, toBase64 seed ++ toBase64 (u32BE (crc32 seed)),
      bottomLine] : List (List Nat)).getLast? = some ([] : List Nat)) := by
    simp only [List.getLast?]
    simp [bottomLine, strBytes]
  rw [if_neg hbne]
  simp only [List.map_cons, List.map_nil]
  have stripTop : (if topLine.getLast? = some 13 then topLine.dropLast
      else topLine) = topLine := by decide
  have stripBot : (if bottomLine.getLast? = some 13 then bottomLine.dropLast
      else bottomLine) = bottomLine := by decide
  have stripMid : (if (toBase64 seed ++ toBase64 (u32BE (crc32 seed))).getLast?
      = some 13 then (toBase64 seed ++ toBase64 (u32BE (crc32 seed))).dropLast
      else (toBase64 seed ++ toBase64 (u32BE (crc32 seed)))) =
      toBase64 seed ++ toBase64 (u32BE (crc32 seed)) := by
    rcases hl : (toBase64 seed ++ toBase64 (u32BE (crc32 seed))).getLast?
      with _ | c
    · simp
    · have hcm : c ∈ toBase64 seed ++ toBase64 (u32BE (crc32 seed)) :=
        List.mem_of_mem_getLast? hl
      have := hmid c hcm
      have hne : ¬ (some c = some (13 : Nat)) := by
        simp only [Option.some.injEq]
        omega
      simp [hne]
  rw [stripTop, stripBot, stripMid]

theorem crc32Bit_lt (crc : Nat) (h : crc < 4294967296) :
    crc32Bit crc < 4294967296 := by
  rw [crc32Bit]
  split
  · have h1 : crc / 2 < 4294967296 := by omega
    have h2 := @Nat.xor_lt_two_pow _ _ 32 (by simpa using h1)
      (by norm_num : (3988292384 : Nat) < 2 ^ 32)
    simpa using h2
  · omega

theorem crc32Byte_lt (crc b : Nat) (hc : crc < 4294967296) (hb : b < 256) :
    crc32Byte crc b < 4294967296 := by
  have h0 : crc ^^^ b < 4294967296 := by
    have h2 := @Nat.xor_lt_two_pow _ _ 32 (by simpa using hc)
      (by omega : b < 2 ^ 32)
    simpa using h2
  rw [crc32Byte]
  exact crc32Bit_lt _ (crc32Bit_lt _ (crc32Bit_lt _ (crc32Bit_lt _
    (crc32Bit_lt _ (crc32Bit_lt _ (crc32Bit_lt _ (crc32Bit_lt _ h0)))))))

theorem crc32_lt (bytes : List Nat) (hb : ∀ b ∈ bytes, b < 256) :
    crc32 bytes < 4294967296 := by
  rw [crc32]
  have hfold : ∀ (l : List Nat), (∀ b ∈ l, b < 256) → ∀ (c : Nat),
      c < 4294967296 → l.foldl crc32Byte c < 4294967296 := by
    intro l
    induction l with
    | nil => intro _ c hc; simpa using hc
    | cons hd tl ih =>
      intro hl c hc
      simp only [List.foldl_cons]
      exact ih (fun b hbm => hl b (by simp [hbm])) _
        (crc32Byte_lt c hd hc (hl hd (by simp)))
  have h1 := hfold bytes hb 4294967295 (by norm_num)
  have h2 := @Nat.xor_lt_two_pow _ _ 32 (by simpa using h1)
    (by norm_num : (4294967295 : Nat) < 2 ^ 32)
  simpa using h2

theorem readU32BE_u32BE (n : Nat) (h : n < 4294967296) :
    readU32BE (u32BE n) = some n := by
  simp only [u32BE, readU32BE, Option.some.injEq]
  omega

theorem setAt_lt : ∀ (arr : List Nat) (i : Nat) (v : Nat), i < arr.length →
    setAt arr i v = some (arr.take i ++ v :: arr.drop (i + 1))
  | [], i, v, h => by simp at h
  | a :: tl, 0, v, _ => by simp [setAt]
  | a :: tl, i + 1, v, h => by
    rw [setAt, setAt_lt tl i v (by simpa using Nat.lt_of_succ_lt_succ h)]
    simp

theorem seedCopyAux_all : ∀ (src : List Nat) (i : Nat) (arr : List Nat),
    i + src.length ≤ arr.length →
    seedCopyAux src i arr =
      some (arr.take i ++ src ++ arr.drop (i + src.length))
  | [], i, arr, _ => by simp [seedCopyAux]
  | b :: rest, i, arr, h => by
    have hi : i < arr.length := by
      simp only [List.length_cons] at h
      omega
    rw [seedCopyAux, setAt_lt arr i b hi]
    dsimp only
    have hlen : (arr.take i ++ b :: arr.drop (i + 1)).length = arr.length := by
      simp
      omega
    rw [seedCopyAux_all rest (i + 1) _ (by
      rw [hlen]
      simp only [List.length_cons] at h
      omega)]
    congr 1
    have hti : (arr.take i).length = i := List.length_take_of_le (le_of_lt hi)
    have htake : (arr.take i ++ b :: arr.drop (i + 1)).take (i + 1) =
        arr.take i ++ [b] := by
      have h2 : (arr.take i ++ (b :: arr.drop (i + 1))).take
          ((arr.take i).length + 1) =
          arr.take i ++ (b :: arr.drop (i + 1)).take 1 := List.take_append 1
      rw [hti] at h2
      simpa using h2
    have hdrop : (arr.take i ++ b :: arr.drop (i + 1)).drop
        (i + 1 + rest.length) = arr.drop (i + (b :: rest).length) := by
      have h2 : ((arr.take i ++ [b]) ++ arr.drop (i + 1)).drop
          ((arr.take i ++ [b]).length + rest.length) =
          (arr.drop (i + 1)).drop rest.length := List.drop_append rest.length
      have h3 : (arr.take i ++ [b]).length = i + 1 := by simp [hti]
      rw [h3] at h2
      have h4 : arr.take i ++ [b] ++ arr.drop (i + 1) =
          arr.take i ++ b :: arr.drop (i + 1) := by simp
      rw [h4] at h2
      rw [h2, List.drop_drop]
      congr 1
      simp
      omega
    rw [htake, hdrop]
    simp

theorem seedCopy_eq (src : List Nat) (h : src.length = 32) :
    seedCopy src = some src := by
  rw [seedCopy, seedCopyAux_all src 0 (List.replicate 32 0) (by simp [h])]
  simp [h]

/-- C5: decoding the three-line text produced by encoding any 32-byte seed
succeeds and returns the same seed. -/
theorem seedfile_roundtrip (seed : List Nat) (hlen : seed.length = 32)
    (hb : ∀ b ∈ seed, b < 256) :
    fromReader (seedToString seed) = SeedDecode.ok seed := by
  rw [fromReader, rustLines_seedToString]
  have hlen44 : (toBase64 seed).length = 44 := by
    rw [toBase64_length, hlen]
  have hlen8 : (toBase64 (u32BE (crc32 seed))).length = 8 := by
    rw [toBase64_length]
    simp [u32BE]
  have hmidlen : (toBase64 seed ++ toBase64 (u32BE (crc32 seed))).length = 52 := by
    simp [hlen44, hlen8]
  have htake : (toBase64 seed ++ toBase64 (u32BE (crc32 seed))).take 44 =
      toBase64 seed := List.take_left' hlen44
  have hdrop : (toBase64 seed ++ toBase64 (u32BE (crc32 seed))).drop 44 =
      toBase64 (u32BE (crc32 seed)) := List.drop_left' hlen44
  have hr1 : fromBase64 (toBase64 seed) = some seed := by
    rw [fromBase64, b64_roundtrip seed hb 0 (by norm_num) []]
    rfl
  have hcrcb : ∀ b ∈ u32BE (crc32 seed), b < 256 := by
    intro b hbm
    simp only [u32BE, List.mem_cons, List.not_mem_nil, or_false] at hbm
    rcases hbm with rfl | rfl | rfl | rfl <;> omega
  have hr2 : fromBase64 (toBase64 (u32BE (crc32 seed))) =
      some (u32BE (crc32 seed)) := by
    rw [fromBase64, b64_roundtrip (u32BE (crc32 seed)) hcrcb 0 (by norm_num) []]
    rfl
  simp only [hmidlen, htake, hdrop, hr1, hr2,
    readU32BE_u32BE (crc32 seed) (crc32_lt seed hb), seedCopy_eq seed hlen]
  norm_num

theorem seedfile_roundtrip_witness :
    ((List.range 32).map (fun i => i * 7 % 256)).length = 32 ∧
    fromReader (seedToString ((List.range 32).map (fun i => i * 7 % 256))) =
      SeedDecode.ok ((List.range 32).map (fun i => i * 7 % 256)) :=
  ⟨by decide,
   seedfile_roundtrip _ (by decide) (by decide)⟩

set_option maxRecDepth 4000 in
/-- C9 fails on the code: a syntactically valid seed file whose middle line is
52 characters, whose 44-character seed portion is unpadded base64 decoding to
33 bytes (forty-four `A`s decode to thirty-three zero bytes), and whose CRC
matches, drives the copy loop past the end of the 32-byte seed array — the
Rust code panics with an out-of-bounds index instead of returning a typed
error. -/
theorem seedfile_copy_out_of_bounds :
    (fromBase64 (toBase64 (List.replicate 33 0))).map List.length = some 33 ∧
    fromReader (topLine ++ [10] ++ toBase64 (List.replicate 33 0) ++
        toBase64 (u32BE (crc32 (List.replicate 33 0))) ++ [10] ++ bottomLine) =
      SeedDecode.oob := by
  constructor
  · rfl
  · rfl

/-! ## The signed-archive framing (`compile.rs` write path, `unpack.rs` read
path)

The Ed25519 primitives are the external `sodiumoxide` library.  Modelled from
the spec: `keypair_from_seed` derives a key pair deterministically from the
32-byte seed; `sign_detached` produces a 64-byte detached signature;
`verify_detached` accepts exactly the signature that `sign_detached` produces
with the matching secret key (the public key determines verification, and a
different public key rejects).  The model keeps the 64-byte signature length
and that contract; the archive framing around it is embedded from the
repository code. -/

/-- Modelled from the spec: the message-dependent half of the signature. -/
def sigDigest (msg : List Nat) : List Nat :=
  List.replicate 31 0 ++ [(msg.foldl (fun a b => a + b) 0) % 256]

/-- Modelled from the spec: `sign::sign_detached`, a 64-byte signature bound
to the signing key and the message. -/
def signDetached (sk msg : List Nat) : List Nat :=
  (sk ++ List.replicate 32 0).take 32 ++ sigDigest msg

/-- Modelled from the spec: `sign::verify_detached`. -/
def verifyDetached (sig msg pk : List Nat) : Bool :=
  decide (sig = signDetached pk msg)

/-- Modelled from the spec: `sign::keypair_from_seed` — `(public, secret)`,
both determined by the seed. -/
def keypairFromSeed (seed : List Nat) : List Nat × List Nat := (seed, seed)

/-- The `sign` helper of `compile.rs` (lines 31-35): base64 of the detached
signature over the given bytes. -/
def signB64 (bytes sk : List Nat) : List Nat := toBase64 (signDetached sk bytes)

/-- The archive framing written by `compile::main` (lines 180-186):
`TURBOv01`, the base64 signature text, then the compressed tar bytes. -/
def writeArchive (tarball sk : List Nat) : List Nat :=
  strBytes "TURBOv01" ++ signB64 tarball sk ++ tarball

/-- `unpack` (`unpack.rs` lines 11-46): read and check the 8-byte magic, read
88 bytes and base64-decode them, build a signature from exactly 64 bytes, read
the rest, verify, and return the rest. -/
def unpack (input : List Nat) (pk : List Nat) : Except String (List Nat) :=
  if input.length < 8 then Except.error "failed to fill whole buffer"
  else if input.take 8 ≠ strBytes "TURBOv01" then
    Except.error "Invalid Archive Header"
  else if (input.drop 8).length < 88 then
    Except.error "failed to fill whole buffer"
  else
    match fromBase64 ((input.drop 8).take 88) with
    | none => Except.error "invalid base64"
    | some sigbytes =>
      if sigbytes.length ≠ 64 then Except.error "Invalid Signature"
      else if verifyDetached sigbytes ((input.drop 8).drop 88) pk then
        Except.ok ((input.drop 8).drop 88)
      else Except.error "Signature Does Not Match"

theorem signDetached_bytes (sk msg : List Nat) (hsk : ∀ b ∈ sk, b < 256) :
    ∀ b ∈ signDetached sk msg, b < 256 := by
  intro b hb
  simp only [signDetached] at hb
  rcases List.mem_append.mp hb with h | h
  · have h2 := List.mem_of_mem_take h
    rcases List.mem_append.mp h2 with h3 | h3
    · exact hsk b h3
    · have := List.eq_of_mem_replicate h3
      omega
  · simp only [sigDigest] at h
    rcases List.mem_append.mp h with h3 | h3
    · have := List.eq_of_mem_replicate h3
      omega
    · simp only [List.mem_singleton] at h3
      subst h3
      exact Nat.mod_lt _ (by norm_num)

theorem signDetached_length (sk msg : List Nat) :
    (signDetached sk msg).length = 64 := by
  simp [signDetached, sigDigest]

/-- C6: writing the signed archive for any payload with a seed-derived keypair
and then verifying the stream with the matching public key succeeds and
returns exactly the signed payload bytes. -/
theorem archive_write_verify_roundtrip (tarball seed : List Nat)
    (hseed : ∀ b ∈ seed, b < 256) :
    unpack (writeArchive tarball (keypairFromSeed seed).2)
        (keypairFromSeed seed).1 = Except.ok tarball := by
  have hsig := signDetached_bytes seed tarball hseed
  have hsiglen := signDetached_length seed tarball
  have hb64len : (signB64 tarball seed).length = 88 := by
    rw [signB64, toBase64_length, hsiglen]
  have hmagiclen : (strBytes "TURBOv01").length = 8 := by decide
  have harch : writeArchive tarball seed =
      strBytes "TURBOv01" ++ (signB64 tarball seed ++ tarball) := by
    simp [writeArchive]
  rw [keypairFromSeed, unpack]
  simp only [harch]
  have hlen : (strBytes "TURBOv01" ++ (signB64 tarball seed ++ tarball)).length =
      96 + tarball.length := by
    simp only [List.length_append, hb64len, hmagiclen]
    omega
  have htake8 : (strBytes "TURBOv01" ++ (signB64 tarball seed ++ tarball)).take 8
      = strBytes "TURBOv01" := List.take_left' hmagiclen
  have hdrop8 : (strBytes "TURBOv01" ++ (signB64 tarball seed ++ tarball)).drop 8
      = signB64 tarball seed ++ tarball := List.drop_left' hmagiclen
  have htake88 : (signB64 tarball seed ++ tarball).take 88 =
      signB64 tarball seed := List.take_left' hb64len
  have hdrop88 : (signB64 tarball seed ++ tarball).drop 88 = tarball :=
    List.drop_left' hb64len
  have hdec : fromBase64 (signB64 tarball seed) =
      some (signDetached seed tarball) := by
    rw [signB64, fromBase64,
      b64_roundtrip (signDetached seed tarball) hsig 0 (by norm_num) []]
    rfl
  have hverify : verifyDetached (signDetached seed tarball) tarball seed
      = true := by
    simp [verifyDetached]
  simp only [hlen, htake8, hdrop8, htake88, hdrop88, hdec, hsiglen, hverify]
  have c1 : ¬ (96 + tarball.length < 8) := by omega
  rw [if_neg c1]
  simp only [List.length_append, hb64len]
  have c2 : ¬ (88 + tarball.length < 88) := by omega
  rw [if_neg c2]
  norm_num

/-- Inversion of a successful `unpack`: all four checks passed and the result
is the remainder after magic and signature block. -/
theorem unpack_ok_inv (input pk bytes : List Nat)
    (hok : unpack input pk = Except.ok bytes) :
    input.take 8 = strBytes "TURBOv01" ∧
    (∃ sig, fromBase64 ((input.drop 8).take 88) = some sig ∧
      sig.length = 64 ∧
      verifyDetached sig ((input.drop 8).drop 88) pk = true) ∧
    bytes = (input.drop 8).drop 88 := by
  rw [unpack] at hok
  split at hok
  · exact absurd hok (by simp)
  · split at hok
    · exact absurd hok (by simp)
    · next h1 h2 =>
      split at hok
      · exact absurd hok (by simp)
      · rcases hdec : fromBase64 ((input.drop 8).take 88) with _ | sig
        · rw [hdec] at hok
          exact absurd hok (by simp)
        · rw [hdec] at hok
          simp only at hok
          split at hok
          · exact absurd hok (by simp)
          · next hlen2 =>
            split at hok
            · next hver =>
              simp only [Except.ok.injEq] at hok
              exact ⟨not_ne_iff.mp h2, ⟨sig, rfl, not_ne_iff.mp hlen2, hver⟩,
                hok.symm⟩
            · exact absurd hok (by simp)

/-- C8: the archive reader returns the payload bytes only when the magic, the
base64 signature block, the 64-byte signature length and the signature
verification all pass; failing any of the four checks, it never returns
bytes. -/
theorem unpack_rejects (input pk : List Nat) :
    (∀ bytes, unpack input pk = Except.ok bytes →
      input.take 8 = strBytes "TURBOv01" ∧
      (∃ sig, fromBase64 ((input.drop 8).take 88) = some sig ∧
        sig.length = 64 ∧
        verifyDetached sig ((input.drop 8).drop 88) pk = true) ∧
      bytes = (input.drop 8).drop 88) ∧
    (input.take 8 ≠ strBytes "TURBOv01" →
      ∀ bytes, unpack input pk ≠ Except.ok bytes) ∧
    (fromBase64 ((input.drop 8).take 88) = none →
      ∀ bytes, unpack input pk ≠ Except.ok bytes) ∧
    (∀ sig, fromBase64 ((input.drop 8).take 88) = some sig → sig.length ≠ 64 →
      ∀ bytes, unpack input pk ≠ Except.ok bytes) ∧
    (∀ sig, fromBase64 ((input.drop 8).take 88) = some sig →
      verifyDetached sig ((input.drop 8).drop 88) pk = false →
      ∀ bytes, unpack input pk ≠ Except.ok bytes) := by
  refine ⟨unpack_ok_inv input pk, ?_, ?_, ?_, ?_⟩
  · intro hmag bytes hok
    exact hmag (unpack_ok_inv input pk bytes hok).1
  · intro hdec bytes hok
    obtain ⟨-, ⟨sig, hdec2, -, -⟩, -⟩ := unpack_ok_inv input pk bytes hok
    rw [hdec] at hdec2
    exact absurd hdec2 (by simp)
  · intro sig hdec hlen bytes hok
    obtain ⟨-, ⟨sig2, hdec2, hlen2, -⟩, -⟩ := unpack_ok_inv input pk bytes hok
    rw [hdec] at hdec2
    simp only [Option.some.injEq] at hdec2
    rw [← hdec2] at hlen2
    exact hlen hlen2
  · intro sig hdec hver bytes hok
    obtain ⟨-, ⟨sig2, hdec2, -, hver2⟩, -⟩ := unpack_ok_inv input pk bytes hok
    rw [hdec] at hdec2
    simp only [Option.some.injEq] at hdec2
    rw [← hdec2] at hver2
    rw [hver] at hver2
    exact absurd hver2 (by simp)

theorem archive_write_verify_roundtrip_witness :
    (∀ b ∈ List.replicate 32 0, b < 256) ∧
    unpack (writeArchive [1, 2, 3] (keypairFromSeed (List.replicate 32 0)).2)
        (keypairFromSeed (List.replicate 32 0)).1 = Except.ok [1, 2, 3] :=
  ⟨by decide,
   archive_write_verify_roundtrip [1, 2, 3] (List.replicate 32 0) (by decide)⟩

theorem unpack_rejects_witness :
    ((strBytes "XXXXXXXXrest").take 8 ≠ strBytes "TURBOv01") ∧
    unpack (strBytes "XXXXXXXXrest") [] ≠ Except.ok [] :=
  ⟨by decide, (unpack_rejects (strBytes "XXXXXXXXrest") []).2.1 (by decide) []⟩


/-! ## Resolver invariants: no package is emitted twice

The Rust `marks` set persists across roles within one `resolve` call, so the
whole output of a call — not just one role's slice — is duplicate-free. -/

def vecAll (st : Stack) : List Package := st.vec.flatten

def savedAll (st : Stack) : List Package := st.saved.flatten

/-- The stack a state currently operates on (a fresh one when no role is in
progress). -/
def curStack (s : RState) : Stack :=
  match s.cur with
  | some (_, st) => st
  | none => Stack.new

theorem popSaved_spec (st : Stack) (p : Package) (st2 : Stack)
    (h : st.popSaved = some (p, st2)) :
    ∃ top rest, st.saved = top :: rest ∧ top.getLast? = some p ∧
      st2.vec = st.vec ∧ st2.saved = top.dropLast :: rest := by
  rw [Stack.popSaved] at h
  rcases hs : st.saved with _ | ⟨top, rest⟩
  · rw [hs] at h
    simp at h
  · rw [hs] at h
    rcases hl : top.getLast? with _ | q
    · simp [hl] at h
    · simp [hl] at h
      obtain ⟨h1, h2⟩ := h
      subst h1
      subst h2
      exact ⟨top, rest, rfl, hl, rfl, rfl⟩

theorem pop_spec (st : Stack) (p : Package) (st2 : Stack)
    (h : st.pop = some (p, st2)) :
    ∃ top rest, st.vec = (p :: top) :: rest ∧ st2.vec = top :: rest ∧
      st2.saved = st.saved := by
  rw [Stack.pop] at h
  rcases hs : st.vec with _ | ⟨_ | ⟨q, top⟩, rest⟩ <;> rw [hs] at h
  · simp at h
  · simp at h
  · simp at h
    obtain ⟨h1, h2⟩ := h
    subst h1
    subst h2
    exact ⟨top, rest, rfl, rfl, rfl⟩

theorem push_saved (st : Stack) (p : Package) : (st.push p).saved = st.saved := by
  rw [Stack.push]
  split <;> rfl

theorem foldl_push_saved (l : List Package) (st : Stack) :
    (l.foldl Stack.push st).saved = st.saved := by
  induction l generalizing st with
  | nil => rfl
  | cons hd tl ih => rw [List.foldl_cons, ih, push_saved]

theorem pushSaved_saved (st : Stack) (p : Package) (hs : st.saved ≠ []) :
    savedAll (st.pushSaved p) = p :: savedAll st := by
  rw [Stack.pushSaved]
  rcases h : st.saved with _ | ⟨top, rest⟩
  · exact absurd h hs
  · simp [savedAll, h]

/-- The state invariant behind the no-duplicates property. -/
structure EmitInv (st : Stack) (marks temp : List Package)
    (sorted : List (Executable × Package)) : Prop where
  nodup : (sorted.map (·.2)).Nodup
  marksIff : ∀ p, p ∈ sorted.map (·.2) ↔ p ∈ marks
  tempMarks : ∀ p ∈ temp, p ∉ marks
  tempNodup : temp.Nodup
  savedTemp : ∀ p ∈ savedAll st, p ∈ temp
  savedNodup : (savedAll st).Nodup
  savedNe : st.saved ≠ []

/-- One `pop_saved` emission preserves the invariant. -/
theorem drain_one_inv (role : Role) (st : Stack) (p : Package) (st2 : Stack)
    (marks temp : List Package) (sorted : List (Executable × Package))
    (hpop : st.popSaved = some (p, st2))
    (hinv : EmitInv st marks temp sorted) :
    EmitInv st2 (hsInsert marks p) (hsRemove temp p)
      (sorted ++ [(Executable.fromRoleAndPackage role p, p)]) := by
  obtain ⟨top, rest, hs, hl, hv, hsv⟩ := popSaved_spec st p st2 hpop
  have htop : top.dropLast ++ [p] = top := List.dropLast_append_getLast? p hl
  have hallst : savedAll st = (top.dropLast ++ [p]) ++ rest.flatten := by
    rw [savedAll, hs, List.flatten_cons, htop]
  have hallst2 : savedAll st2 = top.dropLast ++ rest.flatten := by
    rw [savedAll, hsv, List.flatten_cons]
  have hpmem : p ∈ savedAll st := by
    rw [hallst]
    simp
  have hptemp : p ∈ temp := hinv.savedTemp p hpmem
  have hpmarks : p ∉ marks := hinv.tempMarks p hptemp
  have hpsorted : p ∉ sorted.map (·.2) := fun hmem =>
    hpmarks ((hinv.marksIff p).mp hmem)
  have hnd := hinv.savedNodup
  rw [hallst] at hnd
  have hnd2 : (top.dropLast ++ rest.flatten).Nodup := by
    have h1 : top.dropLast ++ [p] ++ rest.flatten =
        top.dropLast ++ p :: rest.flatten := by simp
    rw [h1] at hnd
    rcases List.nodup_append.mp hnd with ⟨ha, hb, hdisj⟩
    exact List.nodup_append.mpr ⟨ha, hb.of_cons,
      fun x hx1 hx2 => hdisj hx1 (List.mem_cons_of_mem _ hx2)⟩
  have hpnot2 : p ∉ top.dropLast ++ rest.flatten := by
    have h1 : top.dropLast ++ [p] ++ rest.flatten =
        top.dropLast ++ p :: rest.flatten := by simp
    rw [h1] at hnd
    rcases List.nodup_append.mp hnd with ⟨-, hb, hdisj⟩
    intro hx
    rcases List.mem_append.mp hx with hx1 | hx2
    · exact hdisj hx1 (List.mem_cons_self _ _)
    · exact (List.nodup_cons.mp hb).1 hx2
  have hins : hsInsert marks p = p :: marks := by
    simp [hsInsert, hpmarks]
  constructor
  · simp only [List.map_append, List.map_cons, List.map_nil]
    rw [List.nodup_append]
    exact ⟨hinv.nodup, List.nodup_singleton _,
      fun x hx1 hx2 => by
        simp only [List.mem_singleton] at hx2
        subst hx2
        exact hpsorted hx1⟩
  · intro q
    rw [hins]
    simp only [List.map_append, List.map_cons, List.map_nil, List.mem_append,
      List.mem_cons, List.not_mem_nil, or_false]
    constructor
    · rintro (hq | rfl)
      · exact Or.inr ((hinv.marksIff q).mp hq)
      · exact Or.inl rfl
    · rintro (rfl | hq)
      · exact Or.inr rfl
      · exact Or.inl ((hinv.marksIff q).mpr hq)
  · intro q hq
    rw [hsRemove] at hq
    rw [hins]
    have hq2 := (hinv.tempNodup.mem_erase_iff).mp hq
    simp only [List.mem_cons]
    rintro (rfl | hqm)
    · exact hq2.1 rfl
    · exact hinv.tempMarks q hq2.2 hqm
  · exact hinv.tempNodup.erase p
  · intro q hq
    rw [hallst2] at hq
    have hq2 : q ∈ savedAll st := by
      rw [hallst]
      rcases List.mem_append.mp hq with h1 | h2
      · exact List.mem_append.mpr (Or.inl (List.mem_append.mpr (Or.inl h1)))
      · exact List.mem_append.mpr (Or.inr h2)
    have hqp : q ≠ p := fun hqp => by
      subst hqp
      exact hpnot2 hq
    rw [hsRemove]
    exact (hinv.tempNodup.mem_erase_iff).mpr ⟨hqp, hinv.savedTemp q hq2⟩
  · rw [hallst2]
    exact hnd2
  · rw [hsv]
    simp

/-- The whole saved-drain loop preserves the invariant. -/
theorem drain_inv (role : Role) : ∀ (n : Nat) (st : Stack)
    (marks temp : List Package) (sorted : List (Executable × Package))
    (st1 : Stack) (m1 t1 : List Package) (so1 : List (Executable × Package)),
    drainSavedAux role n st marks temp sorted = (st1, m1, t1, so1) →
    EmitInv st marks temp sorted → EmitInv st1 m1 t1 so1
  | 0, st, marks, temp, sorted, st1, m1, t1, so1, hD, hinv => by
    rw [drainSavedAux] at hD
    obtain ⟨rfl, rfl, rfl, rfl⟩ : st = st1 ∧ marks = m1 ∧ temp = t1 ∧
        sorted = so1 := by
      simp only [Prod.mk.injEq] at hD
      exact ⟨hD.1, hD.2.1, hD.2.2.1, hD.2.2.2⟩
    exact hinv
  | n + 1, st, marks, temp, sorted, st1, m1, t1, so1, hD, hinv => by
    rw [drainSavedAux] at hD
    rcases hpop : st.popSaved with _ | ⟨p, st2⟩
    · rw [hpop] at hD
      obtain ⟨rfl, rfl, rfl, rfl⟩ : st = st1 ∧ marks = m1 ∧ temp = t1 ∧
          sorted = so1 := by
        simp only [Prod.mk.injEq] at hD
        exact ⟨hD.1, hD.2.1, hD.2.2.1, hD.2.2.2⟩
      exact hinv
    · rw [hpop] at hD
      exact drain_inv role n st2 _ _ _ st1 m1 t1 so1 hD
        (drain_one_inv role st p st2 marks temp sorted hpop hinv)

theorem outdent_spec (st st2 : Stack) (h : st.outdent = Except.ok st2) :
    ∃ a v vs b w ws, st.vec = a :: v :: vs ∧ st.saved = b :: w :: ws ∧
      st2.vec = v :: vs ∧ st2.saved = w :: ws := by
  rw [Stack.outdent] at h
  rcases hv : st.vec with _ | ⟨a, _ | ⟨v, vs⟩⟩ <;> rw [hv] at h <;>
    rcases hs : st.saved with _ | ⟨b, _ | ⟨w, ws⟩⟩ <;> rw [hs] at h <;>
      simp at h
  exact ⟨a, v, vs, b, w, ws, rfl, rfl, by rw [← h], by rw [← h]⟩

/-- The no-duplicates invariant on machine states. -/
def Inv3 (s : RState) : Prop := EmitInv (curStack s) s.marks s.temp s.sorted

theorem initStack_saved (r : Role) : (initStack r).saved = [[]] := by
  rw [initStack, foldl_push_saved]
  rfl

theorem emitInv_newStack {st : Stack} {marks temp : List Package}
    {sorted : List (Executable × Package)} (h : EmitInv st marks temp sorted)
    (st2 : Stack) (hsv : st2.saved = [[]]) : EmitInv st2 marks temp sorted := by
  have hall : savedAll st2 = [] := by rw [savedAll, hsv]; rfl
  exact ⟨h.nodup, h.marksIff, h.tempMarks, h.tempNodup,
    fun p hp => absurd hp (by rw [hall]; simp),
    by rw [hall]; exact List.nodup_nil, by rw [hsv]; simp⟩

theorem step_inv (repo : PackageRepository) (s s' : RState)
    (h : step repo s = StepOut.cont s') (hinv : Inv3 s) : Inv3 s' := by
  obtain ⟨pending, cur, marks, temp, sorted⟩ := s
  rcases cur with _ | ⟨role, st⟩
  · simp only [step] at h
    rcases pending with _ | ⟨r, rest⟩
    · simp at h
    · simp only [StepOut.cont.injEq] at h
      subst h
      exact emitInv_newStack hinv (initStack r) (initStack_saved r)
  · simp only [step] at h
    rcases hD : drainSaved role st marks temp sorted with ⟨st1, m1, t1, so1⟩
    rw [hD] at h
    simp only at h
    have hDaux : drainSavedAux role (st.saved.headD []).length st marks temp
        sorted = (st1, m1, t1, so1) := by
      rw [← drainSaved]
      exact hD
    have hinv1 : EmitInv st1 m1 t1 so1 :=
      drain_inv role _ st marks temp sorted st1 m1 t1 so1 hDaux hinv
    rcases hpop : st1.pop with _ | ⟨package, st2⟩ <;> rw [hpop] at h
    · by_cases hat : st1.atTop = true
      · rw [if_pos hat] at h
        simp only [StepOut.cont.injEq] at h
        subst h
        exact emitInv_newStack hinv1 Stack.new rfl
      · rw [if_neg hat] at h
        rcases hout : st1.outdent with e | st2 <;> rw [hout] at h
        · simp at h
        · simp only [StepOut.cont.injEq] at h
          subst h
          show EmitInv st2 m1 t1 so1
          obtain ⟨a, v, vs, b, w, ws, hv1, hs1, hv2, hs2⟩ :=
            outdent_spec st1 st2 hout
          have hsub : savedAll st2 = (w :: ws).flatten := by rw [savedAll, hs2]
          have hsup : savedAll st1 = b ++ (w :: ws).flatten := by
            rw [savedAll, hs1, List.flatten_cons]
          refine ⟨hinv1.nodup, hinv1.marksIff, hinv1.tempMarks, hinv1.tempNodup,
            ?_, ?_, ?_⟩
          · intro p hp
            apply hinv1.savedTemp
            rw [hsup]
            rw [hsub] at hp
            exact List.mem_append.mpr (Or.inr hp)
          · rw [hsub]
            have hn := hinv1.savedNodup
            rw [hsup] at hn
            exact hn.of_append_right
          · show st2.saved ≠ []
            rw [hs2]
            simp
    · dsimp only at h
      obtain ⟨vtop, vrest, hv1, hv2, hsv2⟩ := pop_spec st1 package st2 hpop
      have hall2 : savedAll st2 = savedAll st1 := by rw [savedAll, hsv2, savedAll]
      by_cases htemp : package ∈ t1
      · rw [if_pos htemp] at h
        simp at h
      · rw [if_neg htemp] at h
        by_cases hmarks : package ∈ m1
        · rw [if_pos hmarks] at h
          simp only [StepOut.cont.injEq] at h
          subst h
          show EmitInv st2 m1 t1 so1
          exact ⟨hinv1.nodup, hinv1.marksIff, hinv1.tempMarks, hinv1.tempNodup,
            fun p hp => hinv1.savedTemp p (hall2 ▸ hp),
            hall2 ▸ hinv1.savedNodup, hsv2 ▸ hinv1.savedNe⟩
        · rw [if_neg hmarks] at h
          rcases hdeps : repo.dependencies package with _ | deps <;>
            rw [hdeps] at h
          · -- leaf emission
            simp only [StepOut.cont.injEq] at h
            subst h
            show EmitInv st2 (hsInsert m1 package)
              (hsRemove (hsInsert t1 package) package)
              (so1 ++ [(Executable.fromRoleAndPackage role package, package)])
            have htempEq : hsRemove (hsInsert t1 package) package = t1 := by
              simp [hsInsert, hsRemove, htemp]
            have hmarksEq : hsInsert m1 package = package :: m1 := by
              simp [hsInsert, hmarks]
            have hpkgsorted : package ∉ so1.map (·.2) := fun hmem =>
              hmarks ((hinv1.marksIff package).mp hmem)
            refine ⟨?_, ?_, ?_, ?_, ?_, ?_, ?_⟩
            · show ((so1 ++ [(Executable.fromRoleAndPackage role package,
                package)]).map (·.2)).Nodup
              simp only [List.map_append, List.map_cons, List.map_nil]
              rw [List.nodup_append]
              exact ⟨hinv1.nodup, List.nodup_singleton _,
                fun x hx1 hx2 => by
                  simp only [List.mem_singleton] at hx2
                  subst hx2
                  exact hpkgsorted hx1⟩
            · intro q
              show q ∈ (so1 ++ [(Executable.fromRoleAndPackage role package,
                  package)]).map (·.2) ↔ q ∈ hsInsert m1 package
              rw [hmarksEq]
              simp only [List.map_append, List.map_cons, List.map_nil,
                List.mem_append, List.mem_cons, List.not_mem_nil, or_false]
              constructor
              · rintro (hq | rfl)
                · exact Or.inr ((hinv1.marksIff q).mp hq)
                · exact Or.inl rfl
              · rintro (rfl | hq)
                · exact Or.inr rfl
                · exact Or.inl ((hinv1.marksIff q).mpr hq)
            · intro q hq
              show q ∉ hsInsert m1 package
              rw [htempEq] at hq
              rw [hmarksEq]
              simp only [List.mem_cons]
              rintro (rfl | hqm)
              · exact htemp hq
              · exact hinv1.tempMarks q hq hqm
            · rw [htempEq]
              exact hinv1.tempNodup
            · intro q hq
              rw [htempEq]
              exact hinv1.savedTemp q (hall2 ▸ hq)
            · exact hall2 ▸ hinv1.savedNodup
            · exact hsv2 ▸ hinv1.savedNe
          · -- exploration: save the package, indent, push its dependencies
            simp only [StepOut.cont.injEq] at h
            subst h
            show EmitInv (deps.foldl Stack.push ((st2.pushSaved package).indent))
              m1 (hsInsert t1 package) so1
            have hs2ne : st2.saved ≠ [] := hsv2 ▸ hinv1.savedNe
            have hall3 : savedAll (deps.foldl Stack.push
                ((st2.pushSaved package).indent)) = package :: savedAll st2 := by
              rw [savedAll, foldl_push_saved]
              show ((st2.pushSaved package).indent).saved.flatten = _
              rw [Stack.indent]
              simp only [List.flatten_cons, List.nil_append]
              rw [← savedAll, pushSaved_saved st2 package hs2ne]
            have hinsEq : hsInsert t1 package = package :: t1 := by
              simp [hsInsert, htemp]
            refine ⟨hinv1.nodup, hinv1.marksIff, ?_, ?_, ?_, ?_, ?_⟩
            · intro q hq
              rw [hinsEq] at hq
              rcases List.mem_cons.mp hq with rfl | hq2
              · exact hmarks
              · exact hinv1.tempMarks q hq2
            · rw [hinsEq]
              exact List.nodup_cons.mpr ⟨htemp, hinv1.tempNodup⟩
            · intro q hq
              rw [hinsEq]
              rw [hall3] at hq
              rcases List.mem_cons.mp hq with rfl | hq2
              · exact List.mem_cons_self _ _
              · exact List.mem_cons_of_mem _
                  (hinv1.savedTemp q (hall2 ▸ hq2))
            · show (savedAll (deps.foldl Stack.push
                ((st2.pushSaved package).indent))).Nodup
              rw [hall3]
              refine List.nodup_cons.mpr ⟨?_, hall2 ▸ hinv1.savedNodup⟩
              intro hmem
              exact htemp (hinv1.savedTemp package (hall2 ▸ hmem))
            · show (deps.foldl Stack.push
                ((st2.pushSaved package).indent)).saved ≠ []
              rw [foldl_push_saved, Stack.indent]
              simp

theorem step_done (repo : PackageRepository) (s : RState)
    (out : List (Executable × Package)) (h : step repo s = StepOut.done out) :
    out = s.sorted := by
  obtain ⟨pending, cur, marks, temp, sorted⟩ := s
  rcases cur with _ | ⟨role, st⟩
  · simp only [step] at h
    rcases pending with _ | ⟨r, rest⟩
    · simp only [StepOut.done.injEq] at h
      rw [← h]
    · simp at h
  · simp only [step] at h
    rcases hD : drainSaved role st marks temp sorted with ⟨st1, m1, t1, so1⟩
    rw [hD] at h
    simp only at h
    rcases hpop : st1.pop with _ | ⟨package, st2⟩ <;> rw [hpop] at h
    · by_cases hat : st1.atTop = true
      · rw [if_pos hat] at h
        simp at h
      · rw [if_neg hat] at h
        rcases hout : st1.outdent with e | st2 <;> rw [hout] at h <;> simp at h
    · dsimp only at h
      by_cases htemp : package ∈ t1
      · rw [if_pos htemp] at h
        simp at h
      · rw [if_neg htemp] at h
        by_cases hmarks : package ∈ m1
        · rw [if_pos hmarks] at h
          simp at h
        · rw [if_neg hmarks] at h
          rcases hdeps : repo.dependencies package with _ | deps <;>
            rw [hdeps] at h <;> simp at h

theorem resolveLoop_nodup (repo : PackageRepository) : ∀ (fuel : Nat)
    (s : RState) (out : List (Executable × Package)), Inv3 s →
    resolveLoop repo fuel s = ResolveOut.ok out → (out.map (·.2)).Nodup
  | 0, s, out, _, h => by
    rw [resolveLoop] at h
    exact absurd h (by simp)
  | fuel + 1, s, out, hinv, h => by
    rw [resolveLoop] at h
    rcases hstep : step repo s with s2 | so | msg <;> rw [hstep] at h
    · exact resolveLoop_nodup repo fuel s2 out (step_inv repo s s2 hstep hinv) h
    · simp only [ResolveOut.ok.injEq] at h
      subst h
      rw [step_done repo s so hstep]
      exact hinv.nodup
    · exact absurd h (by simp)

theorem inv3_init (roles : List Role) : Inv3 (initState roles) := by
  refine ⟨?_, ?_, ?_, ?_, ?_, ?_, ?_⟩ <;> simp [initState, curStack, savedAll,
    Stack.new, List.Nodup]

/-- C3 amended: across the whole of one `resolve` call — all roles together —
no package is emitted twice; a package reachable from several roles appears
once, under the first role that reached it. -/
theorem resolve_call_no_duplicates (repo : PackageRepository)
    (roles : List Role) (out : List (Executable × Package))
    (h : resolvePairs repo roles = ResolveOut.ok out) :
    (out.map (·.2)).Nodup :=
  resolveLoop_nodup repo (fuelBound repo roles) (initState roles) out
    (inv3_init roles) h

/-- C3 counterexample: two distinct roles both depending on package `c`; the
combined output contains `c` once (emitted under the first role), not once per
role. -/
theorem cross_role_emission_counterexample :
    resolvePairs simpleRepo [mkRole "first" [pkgC], mkRole "second" [pkgC]] =
      ResolveOut.ok
        [(Executable.fromRoleAndPackage (mkRole "first" [pkgC]) pkgD, pkgD),
         (Executable.fromRoleAndPackage (mkRole "first" [pkgC]) pkgC, pkgC)] ∧
    (([(Executable.fromRoleAndPackage (mkRole "first" [pkgC]) pkgD, pkgD),
       (Executable.fromRoleAndPackage (mkRole "first" [pkgC]) pkgC,
         pkgC)].map (·.2)).count pkgC) = 1 := by
  constructor
  · rfl
  · rfl

theorem resolve_call_no_duplicates_witness :
    resolvePairs simpleRepo [mkRole "foo" [pkgZ]] =
      ResolveOut.ok [(Executable.fromRoleAndPackage (mkRole "foo" [pkgZ]) pkgZ,
        pkgZ)] ∧
    (([(Executable.fromRoleAndPackage (mkRole "foo" [pkgZ]) pkgZ,
        pkgZ)].map (·.2)).Nodup) :=
  ⟨by rfl, resolve_call_no_duplicates simpleRepo [mkRole "foo" [pkgZ]] _ (by rfl)⟩


/-! ## Resolver invariants: cycles force the `cycle detected` error

A dependency edge is membership in the stored dependency vector.  A cycle
reachable from a role's direct dependencies makes `resolve` fail: nothing is
ever emitted before all of its dependencies (the emission order is
topological), every package reachable from a role of a completed call is
emitted, and the two together exclude a reachable cycle. -/

/-- The dependency edge relation of a repository. -/
def DepEdge (repo : PackageRepository) (p q : Package) : Prop :=
  q ∈ repo.depList p

/-- A dependency cycle reachable from the role's direct dependencies. -/
def CycleReachable (repo : PackageRepository) (role : Role) : Prop :=
  ∃ p, (∃ d ∈ role.dependencies, Relation.ReflTransGen (DepEdge repo) d p) ∧
    Relation.TransGen (DepEdge repo) p p

/-- `l` is in topological order relative to `repo`, assuming every package of
`done` is already fully emitted: each element's dependencies lie among `done`
and the elements before it. -/
def TopoFrom (repo : PackageRepository) : List Package → List Package → Prop
  | _, [] => True
  | done, p :: rest =>
    (∀ q ∈ repo.depList p, q ∈ done) ∧ TopoFrom repo (p :: done) rest

theorem topoFrom_mono (repo : PackageRepository) :
    ∀ (l done done2 : List Package), TopoFrom repo done l →
    (∀ q ∈ done, q ∈ done2) → TopoFrom repo done2 l
  | [], _, _, _, _ => trivial
  | p :: rest, done, done2, h, hsub => by
    obtain ⟨h1, h2⟩ := h
    exact ⟨fun q hq => hsub q (h1 q hq),
      topoFrom_mono repo rest (p :: done) (p :: done2) h2
        (fun q hq => by
          rcases List.mem_cons.mp hq with rfl | hq2
          · exact List.mem_cons_self _ _
          · exact List.mem_cons_of_mem _ (hsub q hq2))⟩

theorem topoFrom_append (repo : PackageRepository) :
    ∀ (l done : List Package) (p : Package), TopoFrom repo done l →
    (∀ q ∈ repo.depList p, q ∈ done ∨ q ∈ l) → TopoFrom repo done (l ++ [p])
  | [], done, p, _, hdep => by
    refine ⟨fun q hq => ?_, trivial⟩
    rcases hdep q hq with h | h
    · exact h
    · simp at h
  | x :: rest, done, p, h, hdep => by
    obtain ⟨h1, h2⟩ := h
    refine ⟨h1, topoFrom_append repo rest (x :: done) p h2 ?_⟩
    intro q hq
    rcases hdep q hq with h | h
    · exact Or.inl (List.mem_cons_of_mem _ h)
    · rcases List.mem_cons.mp h with rfl | h3
      · exact Or.inl (List.mem_cons_self _ _)
      · exact Or.inr h3

/-- In a duplicate-free topologically ordered list, every dependency of a
member appears strictly earlier. -/
theorem topoFrom_idx (repo : PackageRepository) :
    ∀ (l done : List Package), TopoFrom repo done l → l.Nodup →
    ∀ p ∈ l, ∀ q ∈ repo.depList p,
      q ∈ done ∨ (q ∈ l ∧ l.indexOf q < l.indexOf p)
  | [], _, _, _, p, hp, _, _ => absurd hp (by simp)
  | x :: rest, done, h, hnd, p, hp, q, hq => by
    obtain ⟨h1, h2⟩ := h
    obtain ⟨hx, hndr⟩ := List.nodup_cons.mp hnd
    rcases List.mem_cons.mp hp with rfl | hp2
    · exact Or.inl (h1 q hq)
    · have hpx : p ≠ x := fun he => hx (he ▸ hp2)
      have hidxp : (x :: rest).indexOf p = rest.indexOf p + 1 :=
        List.indexOf_cons_ne _ (Ne.symm hpx)
      rcases topoFrom_idx repo rest (x :: done) h2 hndr p hp2 q hq with hqd | hqr
      · rcases List.mem_cons.mp hqd with rfl | hqd2
        · refine Or.inr ⟨List.mem_cons_self _ _, ?_⟩
          rw [List.indexOf_cons_self, hidxp]
          omega
        · exact Or.inl hqd2
      · obtain ⟨hqmem, hqlt⟩ := hqr
        have hqx : q ≠ x := fun he => hx (he ▸ hqmem)
        refine Or.inr ⟨List.mem_cons_of_mem _ hqmem, ?_⟩
        have hidxq : (x :: rest).indexOf q = rest.indexOf q + 1 :=
          List.indexOf_cons_ne _ (Ne.symm hqx)
        rw [hidxq, hidxp]
        omega

/-- A topologically ordered duplicate-free list whose dependencies stay inside
the list admits no dependency cycle among its members. -/
theorem topoFrom_no_cycle (repo : PackageRepository) (l : List Package)
    (htopo : TopoFrom repo [] l) (hnd : l.Nodup) :
    ∀ p ∈ l, ¬ Relation.TransGen (DepEdge repo) p p := by
  have hstep : ∀ a b, DepEdge repo a b → a ∈ l →
      b ∈ l ∧ l.indexOf b < l.indexOf a := by
    intro a b hab ha
    rcases topoFrom_idx repo l [] htopo hnd a ha b hab with h | h
    · simp at h
    · exact h
  have htrans : ∀ a b, Relation.TransGen (DepEdge repo) a b → a ∈ l →
      b ∈ l ∧ l.indexOf b < l.indexOf a := by
    intro a b hab
    induction hab with
    | single h => exact fun ha => hstep _ _ h ha
    | tail hab hbc ih =>
      intro ha
      obtain ⟨hb, hlt⟩ := ih ha
      obtain ⟨hc, hlt2⟩ := hstep _ _ hbc hb
      exact ⟨hc, by omega⟩
  intro p hp hcyc
  obtain ⟨-, hlt⟩ := htrans p p hcyc hp
  omega

/-- The closure property of the saved queues: for each saved package, every
dependency is either emitted already or lives in a strictly higher level of
the stack ("above", the levels indented after it was saved). -/
def SavedClosure (repo : PackageRepository) (marks : List Package) :
    List (List Package × List Package) → List Package → Prop
  | [], _ => True
  | (v, s) :: rest, above =>
    (∀ p ∈ s, ∀ q ∈ repo.depList p, q ∈ marks ∨ q ∈ above) ∧
    SavedClosure repo marks rest (above ++ v ++ s)

theorem savedClosure_mono (repo : PackageRepository) :
    ∀ (levels : List (List Package × List Package))
    (marks above marks2 above2 : List Package),
    SavedClosure repo marks levels above →
    (∀ q, q ∈ marks ∨ q ∈ above → q ∈ marks2 ∨ q ∈ above2) →
    SavedClosure repo marks2 levels above2
  | [], _, _, _, _, _, _ => trivial
  | (v, sv) :: rest, marks, above, marks2, above2, h, himp => by
    obtain ⟨h1, h2⟩ := h
    refine ⟨fun p hp q hq => himp q (h1 p hp q hq), ?_⟩
    refine savedClosure_mono repo rest marks (above ++ v ++ sv) marks2
      (above2 ++ v ++ sv) h2 ?_
    intro q hq
    rcases hq with hq | hq
    · rcases himp q (Or.inl hq) with h3 | h3
      · exact Or.inl h3
      · exact Or.inr (by simp [h3])
    · simp only [List.append_assoc, List.mem_append] at hq
      rcases hq with hq | hq
      · rcases himp q (Or.inr hq) with h3 | h3
        · exact Or.inl h3
        · exact Or.inr (by simp [h3])
      · exact Or.inr (by simp only [List.append_assoc, List.mem_append]; tauto)

theorem depList_of_dependencies_none (repo : PackageRepository) (p : Package)
    (h : repo.dependencies p = none) : repo.depList p = [] := by
  rw [PackageRepository.dependencies] at h
  rw [PackageRepository.depList]
  rcases hg : repo.get p with _ | d
  · rfl
  · rw [hg] at h
    rw [Option.some_bind] at h
    split at h
    · next hd =>
      simp only [Option.getD_some]
      exact List.length_eq_zero.mp hd
    · simp at h

theorem depList_of_dependencies_some (repo : PackageRepository) (p : Package)
    (deps : List Package) (h : repo.dependencies p = some deps) :
    repo.depList p = deps := by
  rw [PackageRepository.dependencies] at h
  rw [PackageRepository.depList]
  rcases hg : repo.get p with _ | d
  · rw [hg] at h
    simp at h
  · rw [hg] at h
    rw [Option.some_bind] at h
    split at h
    · simp at h
    · simp only [Option.some.injEq] at h
      subst h
      rfl

theorem foldl_push_vec : ∀ (l : List Package) (st : Stack)
    (top : List Package) (rest : List (List Package)), st.vec = top :: rest →
    (l.foldl Stack.push st).vec = (l.reverse ++ top) :: rest
  | [], st, top, rest, h => by simpa using h
  | hd :: tl, st, top, rest, h => by
    rw [List.foldl_cons]
    have hp : (st.push hd).vec = (hd :: top) :: rest := by
      rw [Stack.push, h]
    rw [foldl_push_vec tl (st.push hd) (hd :: top) rest hp]
    simp

theorem initStack_vec (r : Role) : (initStack r).vec = [r.dependencies] := by
  rw [initStack, foldl_push_vec r.dependencies.reverse Stack.new [] []]
  · simp
  · rfl

/-- The completed-drain head queue is empty. -/
theorem drain_head_empty (role : Role) : ∀ (n : Nat) (st : Stack)
    (marks temp : List Package) (sorted : List (Executable × Package))
    (st1 : Stack) (m1 t1 : List Package) (so1 : List (Executable × Package)),
    drainSavedAux role n st marks temp sorted = (st1, m1, t1, so1) →
    n = (st.saved.headD []).length → st1.saved.headD [] = []
  | 0, st, marks, temp, sorted, st1, m1, t1, so1, hD, hn => by
    rw [drainSavedAux] at hD
    simp only [Prod.mk.injEq] at hD
    rw [← hD.1]
    exact List.length_eq_zero.mp hn.symm
  | n + 1, st, marks, temp, sorted, st1, m1, t1, so1, hD, hn => by
    rw [drainSavedAux] at hD
    rcases hpop : st.popSaved with _ | ⟨p, st2⟩
    · exfalso
      rw [Stack.popSaved] at hpop
      rcases hs : st.saved with _ | ⟨top, rest⟩
      · rw [hs] at hn
        simp at hn
      · rw [hs] at hpop hn
        simp only [List.headD_cons] at hn
        rcases htop : top with _ | ⟨a, tb⟩
        · rw [htop] at hn
          simp at hn
        · rw [htop] at hpop
          simp [List.getLast?_eq_getLast (a :: tb) (by simp)] at hpop
    · rw [hpop] at hD
      obtain ⟨top, rest, hs, hl, hv, hsv⟩ := popSaved_spec st p st2 hpop
      refine drain_head_empty role n st2 _ _ _ st1 m1 t1 so1 hD ?_
      rw [hsv]
      rw [hs] at hn
      simp only [List.headD_cons] at hn ⊢
      have htop : top ≠ [] := by
        intro he
        rw [he] at hl
        simp at hl
      rw [List.length_dropLast]
      omega

theorem pop_none_head (st : Stack) (h : st.pop = none) :
    st.vec = [] ∨ ∃ rest, st.vec = [] :: rest := by
  rw [Stack.pop] at h
  rcases hs : st.vec with _ | ⟨_ | ⟨p, top⟩, rest⟩
  · exact Or.inl rfl
  · exact Or.inr ⟨rest, rfl⟩
  · rw [hs] at h
    simp at h

/-- The full machine invariant for the cycle-rejection argument.  `U` is a
superset of every package the machine can touch; `R0` are the direct
dependencies of all requested roles. -/
structure MachInv (repo : PackageRepository) (U R0 : List Package)
    (s : RState) : Prop where
  emit : EmitInv (curStack s) s.marks s.temp s.sorted
  lens : (curStack s).vec.length = (curStack s).saved.length
  topo : TopoFrom repo [] (s.sorted.map (·.2))
  closure : SavedClosure repo s.marks
    ((curStack s).vec.zip (curStack s).saved) []
  vecU : ∀ p ∈ vecAll (curStack s), p ∈ U
  savU : ∀ p ∈ savedAll (curStack s), p ∈ U
  pendU : ∀ r ∈ s.pending, ∀ p ∈ r.dependencies, p ∈ U
  cons : ∀ p ∈ R0, p ∈ s.marks ∨ p ∈ vecAll (curStack s) ∨
    p ∈ savedAll (curStack s) ∨ ∃ r ∈ s.pending, p ∈ r.dependencies

theorem mem_hsInsert (l : List Package) (p q : Package) :
    q ∈ hsInsert l p ↔ q = p ∨ q ∈ l := by
  by_cases h : p ∈ l
  · simp only [hsInsert, h, if_pos]
    constructor
    · exact Or.inr
    · rintro (rfl | hq)
      · exact h
      · exact hq
  · simp [hsInsert, h]

/-- The per-stack part of the machine invariant. -/
structure StackInv (repo : PackageRepository) (U : List Package) (st : Stack)
    (marks temp : List Package) (sorted : List (Executable × Package)) :
    Prop where
  emit : EmitInv st marks temp sorted
  lens : st.vec.length = st.saved.length
  topo : TopoFrom repo [] (sorted.map (·.2))
  closure : SavedClosure repo marks (st.vec.zip st.saved) []
  vecU : ∀ p ∈ vecAll st, p ∈ U
  savU : ∀ p ∈ savedAll st, p ∈ U

theorem drain_one_mach (repo : PackageRepository) (U : List Package)
    (role : Role) (st : Stack) (p : Package) (st2 : Stack)
    (marks temp : List Package) (sorted : List (Executable × Package))
    (hpop : st.popSaved = some (p, st2))
    (hinv : StackInv repo U st marks temp sorted) :
    StackInv repo U st2 (hsInsert marks p) (hsRemove temp p)
      (sorted ++ [(Executable.fromRoleAndPackage role p, p)]) ∧
    st2.vec = st.vec ∧
    (∀ q, q ∈ savedAll st ∨ q ∈ marks →
      q ∈ savedAll st2 ∨ q ∈ hsInsert marks p) := by
  obtain ⟨top, rest, hs, hl, hv, hsv⟩ := popSaved_spec st p st2 hpop
  have htop : top.dropLast ++ [p] = top := List.dropLast_append_getLast? p hl
  have hall2 : savedAll st2 = top.dropLast ++ rest.flatten := by
    rw [savedAll, hsv, List.flatten_cons]
  have hallst : savedAll st = (top.dropLast ++ [p]) ++ rest.flatten := by
    rw [savedAll, hs, List.flatten_cons, htop]
  -- the vec has at least one level in parallel with the saved levels
  obtain ⟨v0, vr, hvec⟩ : ∃ v0 vr, st.vec = v0 :: vr := by
    rcases hvv : st.vec with _ | ⟨v0, vr⟩
    · exfalso
      have := hinv.lens
      rw [hvv, hs] at this
      simp at this
    · exact ⟨v0, vr, rfl⟩
  have hzip : st.vec.zip st.saved = (v0, top) :: vr.zip rest := by
    rw [hvec, hs]
    rfl
  have hzip2 : st2.vec.zip st2.saved = (v0, top.dropLast) :: vr.zip rest := by
    rw [hv, hvec, hsv]
    rfl
  have hclos := hinv.closure
  rw [hzip] at hclos
  obtain ⟨hhead, htail⟩ := hclos
  have hdep_p : ∀ q ∈ repo.depList p, q ∈ marks := by
    intro q hq
    rcases hhead p (by rw [← htop]; simp) q hq with h | h
    · exact h
    · simp at h
  have hmono_mem : ∀ q, q ∈ marks → q ∈ hsInsert marks p := fun q hq =>
    (mem_hsInsert marks p q).mpr (Or.inr hq)
  refine ⟨⟨(drain_one_inv role st p st2 marks temp sorted hpop hinv.emit), ?_,
    ?_, ?_, ?_, ?_⟩, hv, ?_⟩
  · have hl2 := hinv.lens
    rw [hvec, hs] at hl2
    rw [hv, hsv, hvec]
    simpa using hl2
  · simp only [List.map_append, List.map_cons, List.map_nil]
    refine topoFrom_append repo _ [] p hinv.topo ?_
    intro q hq
    exact Or.inr ((hinv.emit.marksIff q).mpr (hdep_p q hq))
  · rw [hzip2]
    refine ⟨?_, ?_⟩
    · intro x hx q hq
      have hxtop : x ∈ top := by rw [← htop]; exact List.mem_append_left _ hx
      rcases hhead x hxtop q hq with h | h
      · exact Or.inl (hmono_mem q h)
      · simp at h
    · refine savedClosure_mono repo (vr.zip rest) marks ([] ++ v0 ++ top)
        (hsInsert marks p) ([] ++ v0 ++ top.dropLast) htail ?_
      intro q hq
      rcases hq with hq | hq
      · exact Or.inl (hmono_mem q hq)
      · simp only [List.nil_append, List.mem_append] at hq
        rcases hq with hq | hq
        · exact Or.inr (by simp [hq])
        · rw [← htop] at hq
          rcases List.mem_append.mp hq with hq2 | hq2
          · exact Or.inr (by simp [hq2])
          · simp only [List.mem_singleton] at hq2
            subst hq2
            exact Or.inl ((mem_hsInsert marks q q).mpr (Or.inl rfl))
  · intro q hq
    apply hinv.vecU
    rw [vecAll, hv] at hq
    exact hq
  · intro q hq
    apply hinv.savU
    rw [hallst]
    rw [hall2] at hq
    rcases List.mem_append.mp hq with h | h
    · exact List.mem_append.mpr (Or.inl (List.mem_append.mpr (Or.inl h)))
    · exact List.mem_append.mpr (Or.inr h)
  · intro q hq
    rcases hq with hq | hq
    · rw [hallst] at hq
      rcases List.mem_append.mp hq with h | h
      · rcases List.mem_append.mp h with h2 | h2
        · exact Or.inl (by rw [hall2]; exact List.mem_append.mpr (Or.inl h2))
        · simp only [List.mem_singleton] at h2
          subst h2
          exact Or.inr ((mem_hsInsert marks q q).mpr (Or.inl rfl))
      · exact Or.inl (by rw [hall2]; exact List.mem_append.mpr (Or.inr h))
    · exact Or.inr (hmono_mem q hq)

theorem drain_mach (repo : PackageRepository) (U : List Package) (role : Role) :
    ∀ (n : Nat) (st : Stack) (marks temp : List Package)
    (sorted : List (Executable × Package)) (st1 : Stack) (m1 t1 : List Package)
    (so1 : List (Executable × Package)),
    drainSavedAux role n st marks temp sorted = (st1, m1, t1, so1) →
    StackInv repo U st marks temp sorted →
    StackInv repo U st1 m1 t1 so1 ∧ st1.vec = st.vec ∧
    (∀ q, q ∈ savedAll st ∨ q ∈ marks → q ∈ savedAll st1 ∨ q ∈ m1)
  | 0, st, marks, temp, sorted, st1, m1, t1, so1, hD, hinv => by
    rw [drainSavedAux] at hD
    simp only [Prod.mk.injEq] at hD
    obtain ⟨rfl, rfl, rfl, rfl⟩ : st = st1 ∧ marks = m1 ∧ temp = t1 ∧
        sorted = so1 := ⟨hD.1, hD.2.1, hD.2.2.1, hD.2.2.2⟩
    exact ⟨hinv, rfl, fun q hq => hq⟩
  | n + 1, st, marks, temp, sorted, st1, m1, t1, so1, hD, hinv => by
    rw [drainSavedAux] at hD
    rcases hpop : st.popSaved with _ | ⟨p, st2⟩
    · rw [hpop] at hD
      simp only [Prod.mk.injEq] at hD
      obtain ⟨rfl, rfl, rfl, rfl⟩ : st = st1 ∧ marks = m1 ∧ temp = t1 ∧
          sorted = so1 := ⟨hD.1, hD.2.1, hD.2.2.1, hD.2.2.2⟩
      exact ⟨hinv, rfl, fun q hq => hq⟩
    · rw [hpop] at hD
      obtain ⟨hinv2, hvec2, hpres2⟩ :=
        drain_one_mach repo U role st p st2 marks temp sorted hpop hinv
      obtain ⟨hinv3, hvec3, hpres3⟩ :=
        drain_mach repo U role n st2 _ _ _ st1 m1 t1 so1 hD hinv2
      exact ⟨hinv3, by rw [hvec3, hvec2], fun q hq => hpres3 q (hpres2 q hq)⟩

theorem step_mach (repo : PackageRepository) (U R0 : List Package)
    (hU : ∀ p q, q ∈ repo.depList p → q ∈ U) (s s2 : RState)
    (h : step repo s = StepOut.cont s2) (hinv : MachInv repo U R0 s) :
    MachInv repo U R0 s2 := by
  obtain ⟨pending, cur, marks, temp, sorted⟩ := s
  rcases cur with _ | ⟨role, st⟩
  · simp only [step] at h
    rcases pending with _ | ⟨r, rest⟩
    · simp at h
    · simp only [StepOut.cont.injEq] at h
      subst h
      have hvec : vecAll (initStack r) = r.dependencies := by
        rw [vecAll, initStack_vec]
        simp
    
      have hsav : savedAll (initStack r) = [] := by
        rw [savedAll, initStack_saved]
        rfl
      refine ⟨emitInv_newStack hinv.emit (initStack r) (initStack_saved r),
        ?_, hinv.topo, ?_, ?_, ?_, ?_, ?_⟩
      · show (initStack r).vec.length = (initStack r).saved.length
        rw [initStack_vec, initStack_saved]
        rfl
      · show SavedClosure repo marks
          ((initStack r).vec.zip (initStack r).saved) []
        rw [initStack_vec, initStack_saved]
        exact ⟨fun p hp => absurd hp (by simp), trivial⟩
      · intro p hp
        rw [show curStack ⟨rest, some (r, initStack r), marks, temp, sorted⟩ =
          initStack r from rfl, hvec] at hp
        exact hinv.pendU r (by simp) p hp
      · intro p hp
        rw [show curStack ⟨rest, some (r, initStack r), marks, temp, sorted⟩ =
          initStack r from rfl, hsav] at hp
        exact absurd hp (by simp)
      · intro r2 hr2 p hp
        exact hinv.pendU r2 (List.mem_cons_of_mem _ hr2) p hp
      · intro p hp
        rcases hinv.cons p hp with hm | hv | hs | ⟨r2, hr2, hp2⟩
        · exact Or.inl hm
        · exact absurd hv (by simp [curStack, vecAll, Stack.new])
        · exact absurd hs (by simp [curStack, savedAll, Stack.new])
        · rcases List.mem_cons.mp hr2 with rfl | hr3
          · exact Or.inr (Or.inl (by
              rw [show curStack ⟨rest, some (r2, initStack r2), marks, temp,
                sorted⟩ = initStack r2 from rfl, hvec]
              exact hp2))
          · exact Or.inr (Or.inr (Or.inr ⟨r2, hr3, hp2⟩))
  · simp only [step] at h
    rcases hD : drainSaved role st marks temp sorted with ⟨st1, m1, t1, so1⟩
    rw [hD] at h
    simp only at h
    have hDaux : drainSavedAux role (st.saved.headD []).length st marks temp
        sorted = (st1, m1, t1, so1) := by
      rw [← drainSaved]
      exact hD
    have hstinv : StackInv repo U st marks temp sorted :=
      ⟨hinv.emit, hinv.lens, hinv.topo, hinv.closure, hinv.vecU, hinv.savU⟩
    obtain ⟨hinv1, hvec1, hpres1⟩ :=
      drain_mach repo U role _ st marks temp sorted st1 m1 t1 so1 hDaux hstinv
    have hhead1 : st1.saved.headD [] = [] :=
      drain_head_empty role _ st marks temp sorted st1 m1 t1 so1 hDaux rfl
    have hcons1 : ∀ p ∈ R0, p ∈ m1 ∨ p ∈ vecAll st1 ∨ p ∈ savedAll st1 ∨
        ∃ r ∈ pending, p ∈ r.dependencies := by
      intro p hp
      rcases hinv.cons p hp with hm | hv | hs | hr
      · rcases hpres1 p (Or.inr hm) with h2 | h2
        · exact Or.inr (Or.inr (Or.inl h2))
        · exact Or.inl h2
      · refine Or.inr (Or.inl ?_)
        rw [vecAll, hvec1]
        exact hv
      · rcases hpres1 p (Or.inl hs) with h2 | h2
        · exact Or.inr (Or.inr (Or.inl h2))
        · exact Or.inl h2
      · exact Or.inr (Or.inr (Or.inr hr))
    rcases hpop : st1.pop with _ | ⟨package, st3⟩ <;> rw [hpop] at h
    · by_cases hat : st1.atTop = true
      · rw [if_pos hat] at h
        simp only [StepOut.cont.injEq] at h
        subst h
        have hvnil : vecAll st1 = [] := by
          rcases pop_none_head st1 hpop with h2 | ⟨r2, h2⟩
          · rw [vecAll, h2]
            rfl
          · rw [Stack.atTop] at hat
            simp only [beq_iff_eq] at hat
            rw [h2] at hat
            simp only [List.length_cons] at hat
            have : r2 = [] := List.length_eq_zero.mp (by omega)
            rw [vecAll, h2, this]
            rfl
        have hsnil : savedAll st1 = [] := by
          have hlen := hinv1.lens
          rw [Stack.atTop] at hat
          simp only [beq_iff_eq] at hat
          rw [hat] at hlen
          rcases hsv : st1.saved with _ | ⟨b, ws⟩
          · rw [savedAll, hsv]
            rfl
          · rw [hsv] at hlen
            simp only [List.length_cons] at hlen
            have hws : ws = [] := List.length_eq_zero.mp (by omega)
            rw [hsv] at hhead1
            simp only [List.headD_cons] at hhead1
            rw [savedAll, hsv, hws, hhead1]
            rfl
        refine ⟨emitInv_newStack hinv1.emit Stack.new rfl, rfl, hinv1.topo,
          ⟨fun p hp => absurd hp (by simp [Stack.new]), trivial⟩, ?_, ?_,
          hinv.pendU, ?_⟩
        · intro p hp
          exact absurd hp (by simp [curStack, vecAll, Stack.new])
        · intro p hp
          exact absurd hp (by simp [curStack, savedAll, Stack.new])
        · intro p hp
          rcases hcons1 p hp with hm | hv | hs | hr
          · exact Or.inl hm
          · rw [hvnil] at hv
            exact absurd hv (by simp)
          · rw [hsnil] at hs
            exact absurd hs (by simp)
          · exact Or.inr (Or.inr (Or.inr hr))
      · rw [if_neg hat] at h
        rcases hout : st1.outdent with e | st4 <;> rw [hout] at h
        · simp at h
        · simp only [StepOut.cont.injEq] at h
          subst h
          obtain ⟨a, v, vs, b, w, ws, hv1, hs1, hv2, hs2⟩ :=
            outdent_spec st1 st4 hout
          have ha : a = [] := by
            rcases pop_none_head st1 hpop with h2 | ⟨r2, h2⟩
            · rw [hv1] at h2
              simp at h2
            · rw [hv1] at h2
              exact (List.cons.injEq _ _ _ _ ▸ h2).1
          have hb : b = [] := by
            rw [hs1] at hhead1
            simpa using hhead1
          have hvall : vecAll st4 = vecAll st1 := by
            rw [vecAll, vecAll, hv1, hv2, ha]
            simp
          have hsall : savedAll st4 = savedAll st1 := by
            rw [savedAll, savedAll, hs1, hs2, hb]
            simp
          have hclos4 : SavedClosure repo m1 (st4.vec.zip st4.saved) [] := by
            have hc := hinv1.closure
            rw [hv1, hs1] at hc
            obtain ⟨-, hc2⟩ := hc
            rw [ha, hb] at hc2
            rw [hv2, hs2]
            simpa using hc2
          refine ⟨?_, ?_, hinv1.topo, hclos4, ?_, ?_, hinv.pendU, ?_⟩
          · show EmitInv st4 m1 t1 so1
            refine ⟨hinv1.emit.nodup, hinv1.emit.marksIff, hinv1.emit.tempMarks,
              hinv1.emit.tempNodup, ?_, ?_, ?_⟩
            · intro p hp
              exact hinv1.emit.savedTemp p (hsall ▸ hp)
            · exact hsall ▸ hinv1.emit.savedNodup
            · rw [hs2]
              simp
          · show st4.vec.length = st4.saved.length
            have hl2 := hinv1.lens
            rw [hv1, hs1] at hl2
            rw [hv2, hs2]
            simpa using hl2
          · intro p hp
            exact hinv1.vecU p (hvall ▸ hp)
          · intro p hp
            exact hinv1.savU p (hsall ▸ hp)
          · intro p hp
            rcases hcons1 p hp with hm | hv | hs | hr
            · exact Or.inl hm
            · exact Or.inr (Or.inl (hvall ▸ hv))
            · exact Or.inr (Or.inr (Or.inl (hsall ▸ hs)))
            · exact Or.inr (Or.inr (Or.inr hr))
    · dsimp only at h
      obtain ⟨vtop, vrest, hv1, hv2, hsv2⟩ := pop_spec st1 package st3 hpop
      have hpkgvec : package ∈ vecAll st1 := by
        rw [vecAll, hv1]
        simp
      have hpkgU : package ∈ U := hinv1.vecU package hpkgvec
      obtain ⟨s0, srest, hs0⟩ : ∃ s0 srest, st1.saved = s0 :: srest := by
        rcases hss : st1.saved with _ | ⟨s0, srest⟩
        · exact absurd hss hinv1.emit.savedNe
        · exact ⟨s0, srest, rfl⟩
      have hvall31 : vecAll st3 = vtop ++ vrest.flatten := by
        rw [vecAll, hv2]
        rfl
      have hvall1 : vecAll st1 = package :: (vtop ++ vrest.flatten) := by
        rw [vecAll, hv1]
        rfl
      have hsall31 : savedAll st3 = savedAll st1 := by
        rw [savedAll, savedAll, hsv2]
      by_cases htemp : package ∈ t1
      · rw [if_pos htemp] at h
        simp at h
      · rw [if_neg htemp] at h
        by_cases hmarks : package ∈ m1
        · rw [if_pos hmarks] at h
          simp only [StepOut.cont.injEq] at h
          subst h
          have hclos3 : SavedClosure repo m1 (st3.vec.zip st3.saved) [] := by
            have hc := hinv1.closure
            rw [hv1, hs0] at hc
            obtain ⟨hc1, hc2⟩ := hc
            rw [hv2, hsv2, hs0]
            refine ⟨hc1, ?_⟩
            refine savedClosure_mono repo _ m1 ([] ++ (package :: vtop) ++ s0)
              m1 ([] ++ vtop ++ s0) hc2 ?_
            intro q hq
            rcases hq with hq | hq
            · exact Or.inl hq
            · simp only [List.nil_append, List.cons_append,
                List.mem_cons, List.mem_append] at hq
              rcases hq with rfl | hq | hq
              · exact Or.inl hmarks
              · exact Or.inr (by simp [hq])
              · exact Or.inr (by simp [hq])
          refine ⟨?_, ?_, hinv1.topo, hclos3, ?_, ?_, hinv.pendU, ?_⟩
          · show EmitInv st3 m1 t1 so1
            refine ⟨hinv1.emit.nodup, hinv1.emit.marksIff, hinv1.emit.tempMarks,
              hinv1.emit.tempNodup, ?_, ?_, ?_⟩
            · intro p hp
              exact hinv1.emit.savedTemp p (hsall31 ▸ hp)
            · exact hsall31 ▸ hinv1.emit.savedNodup
            · rw [hsv2]
              exact hinv1.emit.savedNe
          · show st3.vec.length = st3.saved.length
            have hl2 := hinv1.lens
            rw [hv1] at hl2
            rw [hv2, hsv2]
            simpa using hl2
          · intro p hp
            have hp2 : p ∈ vecAll st3 := hp
            apply hinv1.vecU
            rw [hvall1]
            rw [hvall31] at hp2
            exact List.mem_cons_of_mem _ hp2
          · intro p hp
            have hp2 : p ∈ savedAll st3 := hp
            exact hinv1.savU p (hsall31 ▸ hp2)
          · intro p hp
            rcases hcons1 p hp with hm | hv | hs | hr
            · exact Or.inl hm
            · rw [hvall1] at hv
              rcases List.mem_cons.mp hv with rfl | hv2
              · exact Or.inl hmarks
              · exact Or.inr (Or.inl (by
                  show p ∈ vecAll st3
                  rw [hvall31]
                  exact hv2))
            · exact Or.inr (Or.inr (Or.inl (hsall31 ▸ hs)))
            · exact Or.inr (Or.inr (Or.inr hr))
        · rw [if_neg hmarks] at h
          rcases hdeps : repo.dependencies package with _ | deps <;>
            rw [hdeps] at h
          · simp only [StepOut.cont.injEq] at h
            subst h
            have hdl : repo.depList package = [] :=
              depList_of_dependencies_none repo package hdeps
            have hmem_ins : ∀ q, q ∈ hsInsert m1 package ↔ q = package ∨
                q ∈ m1 := fun q => mem_hsInsert m1 package q
            have hclos3 : SavedClosure repo (hsInsert m1 package)
                (st3.vec.zip st3.saved) [] := by
              have hc := hinv1.closure
              rw [hv1, hs0] at hc
              obtain ⟨hc1, hc2⟩ := hc
              rw [hv2, hsv2, hs0]
              refine ⟨fun p hp q hq => ?_, ?_⟩
              · rcases hc1 p hp q hq with h2 | h2
                · exact Or.inl ((hmem_ins q).mpr (Or.inr h2))
                · exact Or.inr h2
              · refine savedClosure_mono repo _ m1
                  ([] ++ (package :: vtop) ++ s0) (hsInsert m1 package)
                  ([] ++ vtop ++ s0) hc2 ?_
                intro q hq
                rcases hq with hq | hq
                · exact Or.inl ((hmem_ins q).mpr (Or.inr hq))
                · simp only [List.nil_append, List.cons_append,
                    List.mem_cons, List.mem_append] at hq
                  rcases hq with rfl | hq | hq
                  · exact Or.inl ((hmem_ins q).mpr (Or.inl rfl))
                  · exact Or.inr (by simp [hq])
                  · exact Or.inr (by simp [hq])
            refine ⟨?_, ?_, ?_, hclos3, ?_, ?_, hinv.pendU, ?_⟩
            · show EmitInv st3 (hsInsert m1 package)
                (hsRemove (hsInsert t1 package) package)
                (so1 ++ [(Executable.fromRoleAndPackage role package, package)])
              have htempEq : hsRemove (hsInsert t1 package) package = t1 := by
                simp [hsInsert, hsRemove, htemp]
              have hpkgsorted : package ∉ so1.map (·.2) := fun hmem =>
                hmarks ((hinv1.emit.marksIff package).mp hmem)
              refine ⟨?_, ?_, ?_, ?_, ?_, ?_, ?_⟩
              · simp only [List.map_append, List.map_cons, List.map_nil]
                rw [List.nodup_append]
                exact ⟨hinv1.emit.nodup, List.nodup_singleton _,
                  fun x hx1 hx2 => by
                    simp only [List.mem_singleton] at hx2
                    subst hx2
                    exact hpkgsorted hx1⟩
              · intro q
                simp only [List.map_append, List.map_cons, List.map_nil,
                  List.mem_append, List.mem_cons, List.not_mem_nil, or_false,
                  hmem_ins]
                constructor
                · rintro (hq | rfl)
                  · exact Or.inr ((hinv1.emit.marksIff q).mp hq)
                  · exact Or.inl rfl
                · rintro (rfl | hq)
                  · exact Or.inr rfl
                  · exact Or.inl ((hinv1.emit.marksIff q).mpr hq)
              · intro q hq
                rw [htempEq] at hq
                intro hq2
                rcases (hmem_ins q).mp hq2 with rfl | hq3
                · exact htemp hq
                · exact hinv1.emit.tempMarks q hq hq3
              · rw [htempEq]
                exact hinv1.emit.tempNodup
              · intro q hq
                rw [htempEq]
                exact hinv1.emit.savedTemp q (hsall31 ▸ hq)
              · exact hsall31 ▸ hinv1.emit.savedNodup
              · rw [hsv2]
                exact hinv1.emit.savedNe
            · show st3.vec.length = st3.saved.length
              have hl2 := hinv1.lens
              rw [hv1] at hl2
              rw [hv2, hsv2]
              simpa using hl2
            · show TopoFrom repo [] ((so1 ++
                [(Executable.fromRoleAndPackage role package,
                  package)]).map (·.2))
              simp only [List.map_append, List.map_cons, List.map_nil]
              refine topoFrom_append repo _ [] package hinv1.topo ?_
              rw [hdl]
              intro q hq
              exact absurd hq (by simp)
            · intro p hp
              have hp2 : p ∈ vecAll st3 := hp
              apply hinv1.vecU
              rw [hvall1]
              rw [hvall31] at hp2
              exact List.mem_cons_of_mem _ hp2
            · intro p hp
              have hp2 : p ∈ savedAll st3 := hp
              exact hinv1.savU p (hsall31 ▸ hp2)
            · intro p hp
              rcases hcons1 p hp with hm | hv | hs | hr
              · exact Or.inl ((hmem_ins p).mpr (Or.inr hm))
              · rw [hvall1] at hv
                rcases List.mem_cons.mp hv with rfl | hv2
                · exact Or.inl ((hmem_ins p).mpr (Or.inl rfl))
                · exact Or.inr (Or.inl (by
                  show p ∈ vecAll st3
                  rw [hvall31]
                  exact hv2))
              · exact Or.inr (Or.inr (Or.inl (hsall31 ▸ hs)))
              · exact Or.inr (Or.inr (Or.inr hr))
          · simp only [StepOut.cont.injEq] at h
            subst h
            have hdl : repo.depList package = deps :=
              depList_of_dependencies_some repo package deps hdeps
            have hs3ne : st3.saved ≠ [] := by
              rw [hsv2]
              exact hinv1.emit.savedNe
            have hst4vec : (deps.foldl Stack.push
                ((st3.pushSaved package).indent)).vec =
                deps.reverse :: vtop :: vrest := by
              have hiv : ((st3.pushSaved package).indent).vec =
                  [] :: vtop :: vrest := by
                rw [Stack.indent]
                have : (st3.pushSaved package).vec = st3.vec := by
                  rw [Stack.pushSaved]
                  split <;> rfl
                rw [this, hv2]
              rw [foldl_push_vec deps _ [] (vtop :: vrest) hiv]
              simp
            have hst4sav : (deps.foldl Stack.push
                ((st3.pushSaved package).indent)).saved =
                [] :: (package :: s0) :: srest := by
              rw [foldl_push_saved, Stack.indent]
              simp only [List.cons.injEq, true_and]
              rw [Stack.pushSaved, hsv2, hs0]
            have hvall4 : vecAll (deps.foldl Stack.push
                ((st3.pushSaved package).indent)) =
                deps.reverse ++ (vtop ++ vrest.flatten) := by
              rw [vecAll, hst4vec]
              simp
            have hsall4 : savedAll (deps.foldl Stack.push
                ((st3.pushSaved package).indent)) =
                package :: savedAll st3 := by
              rw [savedAll, hst4sav, savedAll, hsv2, hs0]
              simp
            refine ⟨?_, ?_, hinv1.topo, ?_, ?_, ?_, hinv.pendU, ?_⟩
            · show EmitInv (deps.foldl Stack.push
                ((st3.pushSaved package).indent)) m1 (hsInsert t1 package) so1
              have hinsEq : hsInsert t1 package = package :: t1 := by
                simp [hsInsert, htemp]
              refine ⟨hinv1.emit.nodup, hinv1.emit.marksIff, ?_, ?_, ?_, ?_, ?_⟩
              · intro q hq
                rw [hinsEq] at hq
                rcases List.mem_cons.mp hq with rfl | hq2
                · exact hmarks
                · exact hinv1.emit.tempMarks q hq2
              · rw [hinsEq]
                exact List.nodup_cons.mpr ⟨htemp, hinv1.emit.tempNodup⟩
              · intro q hq
                rw [hsall4] at hq
                rw [hinsEq]
                rcases List.mem_cons.mp hq with rfl | hq2
                · exact List.mem_cons_self _ _
                · exact List.mem_cons_of_mem _
                    (hinv1.emit.savedTemp q (hsall31 ▸ hq2))
              · rw [hsall4]
                refine List.nodup_cons.mpr ⟨?_, hsall31 ▸ hinv1.emit.savedNodup⟩
                intro hmem
                exact htemp (hinv1.emit.savedTemp package (hsall31 ▸ hmem))
              · rw [hst4sav]
                simp
            · show (deps.foldl Stack.push ((st3.pushSaved package).indent)
                ).vec.length = (deps.foldl Stack.push
                ((st3.pushSaved package).indent)).saved.length
              rw [hst4vec, hst4sav]
              have hl2 := hinv1.lens
              rw [hv1, hs0] at hl2
              simp only [List.length_cons] at hl2 ⊢
              omega
            · show SavedClosure repo m1 ((deps.foldl Stack.push
                ((st3.pushSaved package).indent)).vec.zip (deps.foldl
                Stack.push ((st3.pushSaved package).indent)).saved) []
              rw [hst4vec, hst4sav]
              have hc := hinv1.closure
              rw [hv1, hs0] at hc
              obtain ⟨hc1, hc2⟩ := hc
              refine ⟨fun p hp => absurd hp (by simp), ?_, ?_⟩
              · intro x hx q hq
                rcases List.mem_cons.mp hx with rfl | hx2
                · rw [hdl] at hq
                  exact Or.inr (by simp [hq])
                · rcases hc1 x hx2 q hq with h2 | h2
                  · exact Or.inl h2
                  · exact absurd h2 (by simp)
              · refine savedClosure_mono repo _ m1
                  ([] ++ (package :: vtop) ++ s0) m1
                  ([] ++ deps.reverse ++ [] ++ vtop ++ (package :: s0)) hc2 ?_
                intro q hq
                rcases hq with hq | hq
                · exact Or.inl hq
                · simp only [List.nil_append, List.cons_append, List.mem_cons,
                    List.mem_append] at hq
                  refine Or.inr ?_
                  simp only [List.nil_append, List.append_assoc,
                    List.mem_append, List.mem_cons]
                  tauto
            · intro p hp
              have hp2 : p ∈ vecAll (deps.foldl Stack.push
                ((st3.pushSaved package).indent)) := hp
              rw [hvall4] at hp2
              rcases List.mem_append.mp hp2 with h2 | h2
              · exact hU package p (by rw [hdl]; exact List.mem_reverse.mp h2)
              · apply hinv1.vecU
                rw [hvall1]
                exact List.mem_cons_of_mem _ h2
            · intro p hp
              have hp2 : p ∈ savedAll (deps.foldl Stack.push
                ((st3.pushSaved package).indent)) := hp
              rw [hsall4] at hp2
              rcases List.mem_cons.mp hp2 with rfl | h2
              · exact hpkgU
              · exact hinv1.savU p (hsall31 ▸ h2)
            · intro p hp
              rcases hcons1 p hp with hm | hv | hs | hr
              · exact Or.inl hm
              · rw [hvall1] at hv
                rcases List.mem_cons.mp hv with rfl | hv2
                · refine Or.inr (Or.inr (Or.inl ?_))
                  show p ∈ savedAll (deps.foldl Stack.push
                    ((st3.pushSaved p).indent))
                  rw [hsall4]
                  exact List.mem_cons_self _ _
                · refine Or.inr (Or.inl ?_)
                  show p ∈ vecAll (deps.foldl Stack.push
                    ((st3.pushSaved package).indent))
                  rw [hvall4]
                  exact List.mem_append_right _ hv2
              · refine Or.inr (Or.inr (Or.inl ?_))
                show p ∈ savedAll (deps.foldl Stack.push
                  ((st3.pushSaved package).indent))
                rw [hsall4]
                exact List.mem_cons_of_mem _ (hsall31 ▸ hs)
              · exact Or.inr (Or.inr (Or.inr hr))

/-! ### Termination of the resolver loop

A potential function bounds the number of `step` iterations: each `cont` step
strictly decreases it, and `fuelBound` exceeds its initial value, so the
machine never runs out of fuel. -/

/-- Packages of `U` that are neither marked nor temp-marked. -/
def uCount (U marks temp : List Package) : Nat :=
  (U.toFinset.filter (fun p => p ∉ marks ∧ p ∉ temp)).card

/-- The pending-roles contribution to the potential. -/
def pendSum : List Role → Nat
  | [] => 0
  | r :: rest => r.dependencies.length + 2 + pendSum rest

theorem pendSum_foldl : ∀ (l : List Role) (a : Nat),
    l.foldl (fun acc r => acc + r.dependencies.length + 2) a = a + pendSum l
  | [], a => by simp [pendSum]
  | r :: rest, a => by
    rw [List.foldl_cons, pendSum_foldl rest, pendSum]
    omega

/-- The potential: marked work dominates, then stack contents and levels and
the roles still pending. -/
def phi (U : List Package) (C : Nat) (s : RState) : Nat :=
  C * uCount U s.marks s.temp + (vecAll (curStack s)).length +
    (savedAll (curStack s)).length + (curStack s).vec.length +
    pendSum s.pending + (if s.cur.isSome then 1 else 0)

theorem uCount_shift (U marks temp : List Package) (p : Package)
    (hp : p ∈ temp) :
    uCount U (hsInsert marks p) (hsRemove temp p) = uCount U marks temp := by
  rw [uCount, uCount]
  congr 1
  apply Finset.filter_congr
  intro q hq
  by_cases hqp : q = p
  · subst hqp
    constructor
    · intro h
      exact absurd ((mem_hsInsert marks q q).mpr (Or.inl rfl)) h.1
    · intro h
      exact absurd hp h.2
  · rw [hsRemove]
    rw [List.mem_erase_of_ne hqp]
    constructor
    · intro h
      exact ⟨fun h2 => h.1 ((mem_hsInsert marks p q).mpr (Or.inr h2)), h.2⟩
    · intro h
      refine ⟨fun h2 => ?_, h.2⟩
      rcases (mem_hsInsert marks p q).mp h2 with rfl | h3
      · exact hqp rfl
      · exact h.1 h3

theorem uCount_drop (U marks temp m2 t2 : List Package) (p : Package)
    (hU : p ∈ U) (hm : p ∉ marks) (ht : p ∉ temp)
    (hiff : ∀ q, q ≠ p → ((q ∉ m2 ∧ q ∉ t2) ↔ (q ∉ marks ∧ q ∉ temp)))
    (hp : p ∈ m2 ∨ p ∈ t2) :
    uCount U m2 t2 + 1 = uCount U marks temp := by
  have hfil : U.toFinset.filter (fun q => q ∉ m2 ∧ q ∉ t2) =
      (U.toFinset.filter (fun q => q ∉ marks ∧ q ∉ temp)).erase p := by
    ext q
    rw [Finset.mem_erase, Finset.mem_filter, Finset.mem_filter]
    constructor
    · intro h
      have hqp : q ≠ p := by
        rintro rfl
        rcases hp with h2 | h2
        · exact h.2.1 h2
        · exact h.2.2 h2
      exact ⟨hqp, h.1, (hiff q hqp).mp h.2⟩
    · intro h
      exact ⟨h.2.1, (hiff q h.1).mpr h.2.2⟩
  have hpmem : p ∈ U.toFinset.filter (fun q => q ∉ marks ∧ q ∉ temp) :=
    Finset.mem_filter.mpr ⟨List.mem_toFinset.mpr hU, hm, ht⟩
  have hcard : 0 < (U.toFinset.filter (fun q => q ∉ marks ∧ q ∉ temp)).card :=
    Finset.card_pos.mpr ⟨p, hpmem⟩
  rw [uCount, uCount, hfil, Finset.card_erase_of_mem hpmem]
  omega

theorem uCount_mark (U marks temp : List Package) (p : Package) (hU : p ∈ U)
    (hm : p ∉ marks) (ht : p ∉ temp) :
    uCount U (hsInsert marks p) temp + 1 = uCount U marks temp := by
  refine uCount_drop U marks temp (hsInsert marks p) temp p hU hm ht ?_
    (Or.inl ((mem_hsInsert marks p p).mpr (Or.inl rfl)))
  intro q hqp
  rw [mem_hsInsert]
  constructor
  · intro h
    exact ⟨fun h2 => h.1 (Or.inr h2), h.2⟩
  · intro h
    refine ⟨fun h2 => ?_, h.2⟩
    rcases h2 with rfl | h3
    · exact hqp rfl
    · exact h.1 h3

theorem uCount_temp (U marks temp : List Package) (p : Package) (hU : p ∈ U)
    (hm : p ∉ marks) (ht : p ∉ temp) :
    uCount U marks (hsInsert temp p) + 1 = uCount U marks temp := by
  refine uCount_drop U marks temp marks (hsInsert temp p) p hU hm ht ?_
    (Or.inr ((mem_hsInsert temp p p).mpr (Or.inl rfl)))
  intro q hqp
  rw [mem_hsInsert]
  constructor
  · intro h
    exact ⟨h.1, fun h2 => h.2 (Or.inr h2)⟩
  · intro h
    refine ⟨h.1, fun h2 => ?_⟩
    rcases h2 with rfl | h3
    · exact hqp rfl
    · exact h.2 h3

/-- Draining the saved queue leaves the potential pieces in check: the
unmarked count is unchanged (everything popped was temp-marked) and the saved
contents only shrink. -/
theorem drain_phi (repo : PackageRepository) (U : List Package) (role : Role) :
    ∀ (n : Nat) (st : Stack) (marks temp : List Package)
    (sorted : List (Executable × Package)) (st1 : Stack)
    (m1 t1 : List Package) (so1 : List (Executable × Package)),
    drainSavedAux role n st marks temp sorted = (st1, m1, t1, so1) →
    StackInv repo U st marks temp sorted →
    uCount U m1 t1 = uCount U marks temp ∧
    (savedAll st1).length ≤ (savedAll st).length
  | 0, st, marks, temp, sorted, st1, m1, t1, so1, h, _ => by
    simp only [drainSavedAux, Prod.mk.injEq] at h
    obtain ⟨rfl, rfl, rfl, rfl⟩ := h
    exact ⟨rfl, le_refl _⟩
  | n + 1, st, marks, temp, sorted, st1, m1, t1, so1, h, hinv => by
    rw [drainSavedAux] at h
    rcases hpop : st.popSaved with _ | ⟨p, st2⟩ <;> rw [hpop] at h
    · simp only [Prod.mk.injEq] at h
      obtain ⟨rfl, rfl, rfl, rfl⟩ := h
      exact ⟨rfl, le_refl _⟩
    · obtain ⟨hinv2, hvec2, hpres2⟩ :=
        drain_one_mach repo U role st p st2 marks temp sorted hpop hinv
      obtain ⟨top, rest, hs, hl, hv, hsv⟩ := popSaved_spec st p st2 hpop
      have hps : p ∈ savedAll st := by
        rw [savedAll, hs]
        exact List.mem_flatten.mpr ⟨top, by simp,
          List.mem_of_mem_getLast? hl⟩
      have hpt : p ∈ temp := hinv.emit.savedTemp p hps
      obtain ⟨ih1, ih2⟩ := drain_phi repo U role n st2 _ _ _ st1 m1 t1 so1
        h hinv2
      have hlen2 : (savedAll st2).length + 1 = (savedAll st).length := by
        have htop : top.dropLast ++ [p] = top :=
          List.dropLast_append_getLast? p hl
        rw [savedAll, savedAll, hs, hsv, List.flatten_cons, List.flatten_cons,
          ← htop]
        simp only [List.length_append, List.length_flatten,
          List.length_dropLast, List.length_cons, List.length_nil]
        omega
      refine ⟨?_, ?_⟩
      · rw [ih1]
        exact uCount_shift U marks temp p hpt
      · omega

/-- Every `cont` step strictly decreases the potential, provided `C` exceeds
by two the length of every stored dependency vector. -/
theorem step_phi (repo : PackageRepository) (U R0 : List Package) (C : Nat)
    (hC : ∀ p deps, repo.dependencies p = some deps → deps.length + 2 ≤ C)
    (s s2 : RState) (h : step repo s = StepOut.cont s2)
    (hinv : MachInv repo U R0 s) : phi U C s2 < phi U C s := by
  have hnew1 : vecAll Stack.new = [] := rfl
  have hnew2 : savedAll Stack.new = [] := rfl
  have hnew3 : (Stack.new).vec.length = 1 := rfl
  obtain ⟨pending, cur, marks, temp, sorted⟩ := s
  rcases cur with _ | ⟨role, st⟩
  · simp only [step] at h
    rcases pending with _ | ⟨r, rest⟩
    · simp at h
    · simp only [StepOut.cont.injEq] at h
      subst h
      show C * uCount U marks temp + (vecAll (initStack r)).length +
        (savedAll (initStack r)).length + (initStack r).vec.length +
        pendSum rest + 1 <
        C * uCount U marks temp + (vecAll Stack.new).length +
        (savedAll Stack.new).length + (Stack.new).vec.length +
        pendSum (r :: rest) + 0
      have h1 : vecAll (initStack r) = r.dependencies := by
        rw [vecAll, initStack_vec]
        simp
      have h2 : savedAll (initStack r) = [] := by
        rw [savedAll, initStack_saved]
        rfl
      have h3 : (initStack r).vec.length = 1 := by
        rw [initStack_vec]
        rfl
      have h4 : pendSum (r :: rest) = r.dependencies.length + 2 +
          pendSum rest := rfl
      rw [h1, h2, h3, h4, hnew1, hnew2, hnew3]
      generalize C * uCount U marks temp = K
      simp only [List.length_nil]
      omega
  · simp only [step] at h
    rcases hD : drainSaved role st marks temp sorted with ⟨st1, m1, t1, so1⟩
    rw [hD] at h
    simp only at h
    have hDaux : drainSavedAux role (st.saved.headD []).length st marks temp
        sorted = (st1, m1, t1, so1) := by
      rw [← drainSaved]
      exact hD
    have hstinv : StackInv repo U st marks temp sorted :=
      ⟨hinv.emit, hinv.lens, hinv.topo, hinv.closure, hinv.vecU, hinv.savU⟩
    obtain ⟨hinv1, hvec1, hpres1⟩ :=
      drain_mach repo U role _ st marks temp sorted st1 m1 t1 so1 hDaux hstinv
    obtain ⟨hue, hsle⟩ := drain_phi repo U role _ st marks temp sorted st1 m1
      t1 so1 hDaux hstinv
    have hva1 : vecAll st1 = vecAll st := by
      rw [vecAll, vecAll, hvec1]
    have hvl1 : st1.vec.length = st.vec.length := by
      rw [hvec1]
    rcases hpop : st1.pop with _ | ⟨package, st3⟩ <;> rw [hpop] at h
    · by_cases hat : st1.atTop = true
      · rw [if_pos hat] at h
        simp only [StepOut.cont.injEq] at h
        subst h
        show C * uCount U m1 t1 + (vecAll Stack.new).length +
          (savedAll Stack.new).length + (Stack.new).vec.length +
          pendSum pending + 0 <
          C * uCount U marks temp + (vecAll st).length +
          (savedAll st).length + st.vec.length + pendSum pending + 1
        rw [hue, hnew1, hnew2, hnew3]
        have hat2 : st.vec.length = 1 := by
          rw [Stack.atTop] at hat
          simp only [beq_iff_eq] at hat
          omega
        generalize C * uCount U marks temp = K
        simp only [List.length_nil]
        omega
      · rw [if_neg hat] at h
        rcases hout : st1.outdent with e | st4 <;> rw [hout] at h
        · simp at h
        · simp only [StepOut.cont.injEq] at h
          subst h
          obtain ⟨a, v, vs, b, w, ws, hv1, hs1, hv2, hs2⟩ :=
            outdent_spec st1 st4 hout
          have ha : a = [] := by
            rcases pop_none_head st1 hpop with h2 | ⟨r2, h2⟩
            · rw [hv1] at h2
              simp at h2
            · rw [hv1] at h2
              exact (List.cons.injEq _ _ _ _ ▸ h2).1
          have hhead1 : st1.saved.headD [] = [] :=
            drain_head_empty role _ st marks temp sorted st1 m1 t1 so1 hDaux
              rfl
          have hb : b = [] := by
            rw [hs1] at hhead1
            simpa using hhead1
          have hvall : (vecAll st4).length + 0 = (vecAll st).length := by
            rw [← hva1, vecAll, vecAll, hv1, hv2, ha]
            simp
          have hsall : (savedAll st4).length ≤ (savedAll st).length := by
            have he : savedAll st4 = savedAll st1 := by
              rw [savedAll, savedAll, hs1, hs2, hb]
              simp
            rw [he]
            exact hsle
          have hlen : st4.vec.length + 1 = st.vec.length := by
            rw [← hvl1, hv1, hv2]
            simp
          show C * uCount U m1 t1 + (vecAll st4).length +
            (savedAll st4).length + st4.vec.length + pendSum pending + 1 <
            C * uCount U marks temp + (vecAll st).length +
            (savedAll st).length + st.vec.length + pendSum pending + 1
          rw [hue]
          generalize C * uCount U marks temp = K
          omega
    · dsimp only at h
      obtain ⟨vtop, vrest, hv1, hv2, hsv2⟩ := pop_spec st1 package st3 hpop
      have hvall1 : (vecAll st3).length + 1 = (vecAll st).length := by
        rw [← hva1, vecAll, vecAll, hv1, hv2]
        simp
      have hsall31 : savedAll st3 = savedAll st1 := by
        rw [savedAll, savedAll, hsv2]
      have hlen31 : st3.vec.length = st.vec.length := by
        rw [← hvl1, hv1, hv2]
        simp
      have hpkgvec : package ∈ vecAll st1 := by
        rw [vecAll, hv1]
        simp
      have hpkgU : package ∈ U := hinv1.vecU package hpkgvec
      by_cases htemp : package ∈ t1
      · rw [if_pos htemp] at h
        simp at h
      · rw [if_neg htemp] at h
        by_cases hmarks : package ∈ m1
        · rw [if_pos hmarks] at h
          simp only [StepOut.cont.injEq] at h
          subst h
          show C * uCount U m1 t1 + (vecAll st3).length +
            (savedAll st3).length + st3.vec.length + pendSum pending + 1 <
            C * uCount U marks temp + (vecAll st).length +
            (savedAll st).length + st.vec.length + pendSum pending + 1
          rw [hue, hsall31, hlen31]
          generalize C * uCount U marks temp = K
          omega
        · rw [if_neg hmarks] at h
          rcases hdeps : repo.dependencies package with _ | deps <;>
            rw [hdeps] at h
          · simp only [StepOut.cont.injEq] at h
            subst h
            have htempEq : hsRemove (hsInsert t1 package) package = t1 := by
              simp [hsInsert, hsRemove, htemp]
            have hu2 : uCount U (hsInsert m1 package) t1 + 1 =
                uCount U m1 t1 :=
              uCount_mark U m1 t1 package hpkgU hmarks htemp
            have hmul : C * uCount U marks temp =
                C * uCount U (hsInsert m1 package) t1 + C := by
              rw [← hue, ← hu2]
              ring
            show C * uCount U (hsInsert m1 package)
              (hsRemove (hsInsert t1 package) package) + (vecAll st3).length +
              (savedAll st3).length + st3.vec.length + pendSum pending + 1 <
              C * uCount U marks temp + (vecAll st).length +
              (savedAll st).length + st.vec.length + pendSum pending + 1
            rw [htempEq, hmul, hsall31, hlen31]
            generalize C * uCount U (hsInsert m1 package) t1 = K
            omega
          · simp only [StepOut.cont.injEq] at h
            subst h
            have hs3ne : st3.saved ≠ [] := by
              rw [hsv2]
              exact hinv1.emit.savedNe
            obtain ⟨s0, srest, hs0⟩ : ∃ s0 srest, st1.saved = s0 :: srest := by
              rcases hss : st1.saved with _ | ⟨s0, srest⟩
              · exact absurd hss hinv1.emit.savedNe
              · exact ⟨s0, srest, rfl⟩
            have hst4vec : (deps.foldl Stack.push
                ((st3.pushSaved package).indent)).vec =
                deps.reverse :: vtop :: vrest := by
              have hiv : ((st3.pushSaved package).indent).vec =
                  [] :: vtop :: vrest := by
                rw [Stack.indent]
                have : (st3.pushSaved package).vec = st3.vec := by
                  rw [Stack.pushSaved]
                  split <;> rfl
                rw [this, hv2]
              rw [foldl_push_vec deps _ [] (vtop :: vrest) hiv]
              simp
            have hst4sav : (deps.foldl Stack.push
                ((st3.pushSaved package).indent)).saved =
                [] :: (package :: s0) :: srest := by
              rw [foldl_push_saved, Stack.indent]
              simp only [List.cons.injEq, true_and]
              rw [Stack.pushSaved, hsv2, hs0]
            have hvl4 : (vecAll (deps.foldl Stack.push
                ((st3.pushSaved package).indent))).length + 1 =
                deps.length + (vecAll st).length := by
              rw [vecAll, hst4vec, ← hvall1, vecAll, hv2]
              simp only [List.flatten_cons, List.length_append,
                List.length_flatten, List.length_reverse]
              omega
            have hsl4 : (savedAll (deps.foldl Stack.push
                ((st3.pushSaved package).indent))).length =
                (savedAll st1).length + 1 := by
              rw [savedAll, hst4sav, savedAll, hs0]
              simp
            have hll4 : (deps.foldl Stack.push
                ((st3.pushSaved package).indent)).vec.length =
                st.vec.length + 1 := by
              rw [hst4vec, ← hvl1, hv1]
              simp
            have hu2 : uCount U m1 (hsInsert t1 package) + 1 =
                uCount U m1 t1 :=
              uCount_temp U m1 t1 package hpkgU hmarks htemp
            have hmul : C * uCount U marks temp =
                C * uCount U m1 (hsInsert t1 package) + C := by
              rw [← hue, ← hu2]
              ring
            have hCdeps : deps.length + 2 ≤ C := hC package deps hdeps
            show C * uCount U m1 (hsInsert t1 package) +
              (vecAll (deps.foldl Stack.push
                ((st3.pushSaved package).indent))).length +
              (savedAll (deps.foldl Stack.push
                ((st3.pushSaved package).indent))).length +
              (deps.foldl Stack.push
                ((st3.pushSaved package).indent)).vec.length +
              pendSum pending + 1 <
              C * uCount U marks temp + (vecAll st).length +
              (savedAll st).length + st.vec.length + pendSum pending + 1
            rw [hmul, hsl4, hll4]
            generalize C * uCount U m1 (hsInsert t1 package) = K
            omega

/-- `outdent` succeeds on any well-formed stack not at the top level. -/
theorem outdent_ok_of (st : Stack) (hlen : st.vec.length = st.saved.length)
    (hne : st.saved ≠ []) (hat : ¬ st.atTop = true) :
    ∃ st2, st.outdent = Except.ok st2 := by
  obtain ⟨sv, ss⟩ := st
  simp only at hlen hne
  rcases sv with _ | ⟨x, xs⟩
  · exact absurd (List.length_eq_zero.mp (by simpa using hlen.symm)) hne
  · rcases xs with _ | ⟨y, zs⟩
    · exact absurd (by rfl) hat
    · rcases ss with _ | ⟨a2, rs⟩
      · simp at hlen
      · rcases rs with _ | ⟨b2, cs⟩
        · simp at hlen
        · exact ⟨⟨y :: zs, b2 :: cs⟩, rfl⟩

/-- Under the machine invariant the only failure `step` can produce is the
cycle error: `outdent` is never called at the top level. -/
theorem step_fail_msg (repo : PackageRepository) (U R0 : List Package)
    (s : RState) (msg : String) (h : step repo s = StepOut.fail msg)
    (hinv : MachInv repo U R0 s) : msg = "cycle detected" := by
  obtain ⟨pending, cur, marks, temp, sorted⟩ := s
  rcases cur with _ | ⟨role, st⟩
  · simp only [step] at h
    rcases pending with _ | ⟨r, rest⟩ <;> simp at h
  · simp only [step] at h
    rcases hD : drainSaved role st marks temp sorted with ⟨st1, m1, t1, so1⟩
    rw [hD] at h
    simp only at h
    have hDaux : drainSavedAux role (st.saved.headD []).length st marks temp
        sorted = (st1, m1, t1, so1) := by
      rw [← drainSaved]
      exact hD
    have hstinv : StackInv repo U st marks temp sorted :=
      ⟨hinv.emit, hinv.lens, hinv.topo, hinv.closure, hinv.vecU, hinv.savU⟩
    obtain ⟨hinv1, hvec1, hpres1⟩ :=
      drain_mach repo U role _ st marks temp sorted st1 m1 t1 so1 hDaux hstinv
    rcases hpop : st1.pop with _ | ⟨package, st3⟩ <;> rw [hpop] at h
    · by_cases hat : st1.atTop = true
      · rw [if_pos hat] at h
        simp at h
      · rw [if_neg hat] at h
        rcases hout : st1.outdent with e | st4 <;> rw [hout] at h
        · exfalso
          obtain ⟨st4, hok⟩ :=
            outdent_ok_of st1 hinv1.lens hinv1.emit.savedNe hat
          rw [hok] at hout
          simp at hout
        · simp at h
    · dsimp only at h
      by_cases htemp : package ∈ t1
      · rw [if_pos htemp] at h
        simp only [StepOut.fail.injEq] at h
        exact h.symm
      · rw [if_neg htemp] at h
        by_cases hmarks : package ∈ m1
        · rw [if_pos hmarks] at h
          simp at h
        · rw [if_neg hmarks] at h
          rcases hdeps : repo.dependencies package with _ | deps <;>
            rw [hdeps] at h <;> simp at h

/-- `step` only reports completion when no role is current and none is
pending, and then it returns the accumulated output. -/
theorem step_done_spec (repo : PackageRepository) (s : RState)
    (sorted : List (Executable × Package))
    (h : step repo s = StepOut.done sorted) :
    s.cur = none ∧ s.pending = [] ∧ sorted = s.sorted := by
  obtain ⟨pending, cur, marks, temp, sorted0⟩ := s
  rcases cur with _ | ⟨role, st⟩
  · simp only [step] at h
    rcases pending with _ | ⟨r, rest⟩
    · simp only [StepOut.done.injEq] at h
      exact ⟨rfl, rfl, h.symm⟩
    · simp at h
  · simp only [step] at h
    rcases hD : drainSaved role st marks temp sorted0 with ⟨st1, m1, t1, so1⟩
    rw [hD] at h
    simp only at h
    rcases hpop : st1.pop with _ | ⟨package, st3⟩ <;> rw [hpop] at h
    · by_cases hat : st1.atTop = true
      · rw [if_pos hat] at h
        simp at h
      · rw [if_neg hat] at h
        rcases hout : st1.outdent with e | st4 <;> rw [hout] at h <;> simp at h
    · dsimp only at h
      by_cases htemp : package ∈ t1
      · rw [if_pos htemp] at h
        simp at h
      · rw [if_neg htemp] at h
        by_cases hmarks : package ∈ m1
        · rw [if_pos hmarks] at h
          simp at h
        · rw [if_neg hmarks] at h
          rcases hdeps : repo.dependencies package with _ | deps <;>
            rw [hdeps] at h <;> simp at h

/-- With more fuel than the potential, the loop cannot run out of fuel. -/
theorem resolveLoop_no_fuel (repo : PackageRepository) (U R0 : List Package)
    (C : Nat) (hU : ∀ p q, q ∈ repo.depList p → q ∈ U)
    (hC : ∀ p deps, repo.dependencies p = some deps → deps.length + 2 ≤ C) :
    ∀ (fuel : Nat) (s : RState), MachInv repo U R0 s → phi U C s < fuel →
    resolveLoop repo fuel s ≠ ResolveOut.outOfFuel
  | 0, s, _, hlt => by omega
  | fuel + 1, s, hinv, hlt => by
    rw [resolveLoop]
    rcases hstep : step repo s with s2 | sorted | msg
    · have hinv2 := step_mach repo U R0 hU s s2 hstep hinv
      have hphi := step_phi repo U R0 C hC s s2 hstep hinv
      exact resolveLoop_no_fuel repo U R0 C hU hC fuel s2 hinv2 (by omega)
    · simp
    · simp

/-- Any failure the loop reports from an invariant state is the cycle error. -/
theorem resolveLoop_fail_msg (repo : PackageRepository) (U R0 : List Package)
    (hU : ∀ p q, q ∈ repo.depList p → q ∈ U) :
    ∀ (fuel : Nat) (s : RState) (msg : String), MachInv repo U R0 s →
    resolveLoop repo fuel s = ResolveOut.fail msg → msg = "cycle detected"
  | 0, s, msg, _, h => by simp [resolveLoop] at h
  | fuel + 1, s, msg, hinv, h => by
    rw [resolveLoop] at h
    rcases hstep : step repo s with s2 | sorted | msg2 <;> rw [hstep] at h
    · exact resolveLoop_fail_msg repo U R0 hU fuel s2 msg
        (step_mach repo U R0 hU s s2 hstep hinv) h
    · simp at h
    · simp only [ResolveOut.fail.injEq] at h
      rw [← h]
      exact step_fail_msg repo U R0 s msg2 hstep hinv

/-- A successful run emits a duplicate-free topological order containing every
package of `R0`. -/
theorem resolveLoop_ok_spec (repo : PackageRepository) (U R0 : List Package)
    (hU : ∀ p q, q ∈ repo.depList p → q ∈ U) :
    ∀ (fuel : Nat) (s : RState) (sorted : List (Executable × Package)),
    MachInv repo U R0 s → resolveLoop repo fuel s = ResolveOut.ok sorted →
    TopoFrom repo [] (sorted.map (·.2)) ∧ (sorted.map (·.2)).Nodup ∧
      ∀ p ∈ R0, p ∈ sorted.map (·.2)
  | 0, s, sorted, _, h => by simp [resolveLoop] at h
  | fuel + 1, s, sorted, hinv, h => by
    rw [resolveLoop] at h
    rcases hstep : step repo s with s2 | sorted2 | msg <;> rw [hstep] at h
    · exact resolveLoop_ok_spec repo U R0 hU fuel s2 sorted
        (step_mach repo U R0 hU s s2 hstep hinv) h
    · simp only [ResolveOut.ok.injEq] at h
      subst h
      obtain ⟨hcur, hpend, hsor⟩ := step_done_spec repo s sorted2 hstep
      subst hsor
      refine ⟨hinv.topo, hinv.emit.nodup, ?_⟩
      intro p hp
      rcases hinv.cons p hp with hm | hv | hs | ⟨r, hr, -⟩
      · exact (hinv.emit.marksIff p).mpr hm
      · exfalso
        rw [curStack, hcur] at hv
        exact absurd hv (by simp [vecAll, Stack.new])
      · exfalso
        rw [curStack, hcur] at hs
        exact absurd hs (by simp [savedAll, Stack.new])
      · rw [hpend] at hr
        exact absurd hr (by simp)
    · simp at h

/-- The emitted topological order is closed under dependency reachability. -/
theorem topo_reach (repo : PackageRepository) (l : List Package)
    (htopo : TopoFrom repo [] l) (hnd : l.Nodup) (d p : Package)
    (hr : Relation.ReflTransGen (DepEdge repo) d p) (hd : d ∈ l) : p ∈ l := by
  induction hr with
  | refl => exact hd
  | tail hr hedge ih =>
    rcases topoFrom_idx repo l [] htopo hnd _ ih _ hedge with h2 | h2
    · exact absurd h2 (by simp)
    · exact h2.1

/-- The universe `fuelBound` counts: every key and stored dependency of the
repository, and every direct dependency of the requested roles. -/
def allPkgs (repo : PackageRepository) (roles : List Role) : List Package :=
  repo.deps.foldl (fun acc e => acc ++ [e.1] ++ e.2) [] ++
    roles.foldl (fun acc r => acc ++ r.dependencies) []

/-- The length of the longest stored dependency vector. -/
def maxDepsLen (repo : PackageRepository) : Nat :=
  repo.deps.foldl (fun acc e => max acc e.2.length) 0

theorem fuelBound_eq (repo : PackageRepository) (roles : List Role) :
    fuelBound repo roles = (maxDepsLen repo + 2) *
      ((allPkgs repo roles).length + 1) + pendSum roles + 1 := by
  show (maxDepsLen repo + 2) * ((allPkgs repo roles).length + 1) +
    roles.foldl (fun acc r => acc + r.dependencies.length + 2) 0 + 1 = _
  rw [pendSum_foldl roles 0, Nat.zero_add]

theorem mem_foldl_pkgs : ∀ (l : List (Package × List Package))
    (acc : List Package) (x : Package),
    (x ∈ acc ∨ ∃ e ∈ l, x = e.1 ∨ x ∈ e.2) →
    x ∈ l.foldl (fun acc e => acc ++ [e.1] ++ e.2) acc
  | [], acc, x, h => by
    rcases h with h | ⟨e, he, -⟩
    · exact h
    · exact absurd he (by simp)
  | e :: rest, acc, x, h => by
    rw [List.foldl_cons]
    apply mem_foldl_pkgs rest (acc ++ [e.1] ++ e.2) x
    rcases h with h | ⟨e2, he2, h2⟩
    · exact Or.inl (by simp [h])
    · rcases List.mem_cons.mp he2 with rfl | he3
      · refine Or.inl ?_
        rcases h2 with rfl | h3
        · simp
        · simp [h3]
      · exact Or.inr ⟨e2, he3, h2⟩

theorem mem_foldl_roles : ∀ (l : List Role) (acc : List Package) (x : Package),
    (x ∈ acc ∨ ∃ r ∈ l, x ∈ r.dependencies) →
    x ∈ l.foldl (fun acc r => acc ++ r.dependencies) acc
  | [], acc, x, h => by
    rcases h with h | ⟨r, hr, -⟩
    · exact h
    · exact absurd hr (by simp)
  | r :: rest, acc, x, h => by
    rw [List.foldl_cons]
    apply mem_foldl_roles rest (acc ++ r.dependencies) x
    rcases h with h | ⟨r2, hr2, h2⟩
    · exact Or.inl (by simp [h])
    · rcases List.mem_cons.mp hr2 with rfl | hr3
      · exact Or.inl (by simp [h2])
      · exact Or.inr ⟨r2, hr3, h2⟩

theorem foldl_max_ge : ∀ (l : List (Package × List Package)) (a : Nat),
    a ≤ l.foldl (fun acc e => max acc e.2.length) a ∧
    ∀ e ∈ l, e.2.length ≤ l.foldl (fun acc e => max acc e.2.length) a
  | [], a => ⟨le_refl _, by simp⟩
  | e :: rest, a => by
    obtain ⟨ih1, ih2⟩ := foldl_max_ge rest (max a e.2.length)
    rw [List.foldl_cons]
    refine ⟨le_trans (le_max_left _ _) ih1, ?_⟩
    intro e2 he2
    rcases List.mem_cons.mp he2 with rfl | h2
    · exact le_trans (le_max_right _ _) ih1
    · exact ih2 e2 h2

theorem depList_sub_allPkgs (repo : PackageRepository) (roles : List Role) :
    ∀ p q, q ∈ repo.depList p → q ∈ allPkgs repo roles := by
  intro p q hq
  rw [PackageRepository.depList] at hq
  rcases hg : repo.get p with _ | d
  · rw [hg] at hq
    simp at hq
  · rw [hg] at hq
    simp only [Option.getD_some] at hq
    rw [PackageRepository.get] at hg
    rcases hf : repo.deps.find? (fun e => e.1 = p) with _ | e
    · rw [hf] at hg
      simp at hg
    · rw [hf] at hg
      have hed : e.2 = d := by simpa using hg
      have he : e ∈ repo.deps := List.mem_of_find?_eq_some hf
      rw [allPkgs]
      refine List.mem_append_left _ ?_
      exact mem_foldl_pkgs repo.deps [] q
        (Or.inr ⟨e, he, Or.inr (hed ▸ hq)⟩)

theorem roleDeps_sub_allPkgs (repo : PackageRepository) (roles : List Role) :
    ∀ r ∈ roles, ∀ p ∈ r.dependencies, p ∈ allPkgs repo roles := by
  intro r hr p hp
  rw [allPkgs]
  refine List.mem_append_right _ ?_
  exact mem_foldl_roles roles [] p (Or.inr ⟨r, hr, hp⟩)

theorem deps_le_maxDepsLen (repo : PackageRepository) :
    ∀ p deps, repo.dependencies p = some deps →
    deps.length + 2 ≤ maxDepsLen repo + 2 := by
  intro p deps h
  rw [PackageRepository.dependencies] at h
  rcases hg : repo.get p with _ | d
  · rw [hg] at h
    simp at h
  · rw [hg] at h
    simp only [Option.some_bind] at h
    split at h
    · simp at h
    · simp only [Option.some.injEq] at h
      subst h
      rw [PackageRepository.get] at hg
      rcases hf : repo.deps.find? (fun e => e.1 = p) with _ | e
      · rw [hf] at hg
        simp at hg
      · rw [hf] at hg
        have hed : e.2 = d := by simpa using hg
        have he : e ∈ repo.deps := List.mem_of_find?_eq_some hf
        have hle : e.2.length ≤ maxDepsLen repo :=
          (foldl_max_ge repo.deps 0).2 e he
        rw [← hed]
        omega

/-- The machine invariant holds at the initial state. -/
theorem initState_mach (repo : PackageRepository) (roles : List Role)
    (U R0 : List Package)
    (hpend : ∀ r ∈ roles, ∀ p ∈ r.dependencies, p ∈ U)
    (hcons : ∀ p ∈ R0, ∃ r ∈ roles, p ∈ r.dependencies) :
    MachInv repo U R0 (initState roles) := by
  refine ⟨⟨?_, ?_, ?_, ?_, ?_, ?_, ?_⟩, rfl, trivial,
    ⟨fun p hp => absurd hp (by simp), trivial⟩, ?_, ?_, hpend, ?_⟩
  · simp [initState]
  · simp [initState]
  · simp [initState]
  · simp [initState]
  · intro p hp
    exact absurd hp (by simp [savedAll, Stack.new, curStack, initState])
  · simp [savedAll, Stack.new, curStack, initState]
  · simp [Stack.new, curStack, initState]
  · intro p hp
    exact absurd hp (by simp [vecAll, Stack.new, curStack, initState])
  · intro p hp
    exact absurd hp (by simp [savedAll, Stack.new, curStack, initState])
  · intro p hp
    exact Or.inr (Or.inr (Or.inr (hcons p hp)))

theorem phi_init_lt (repo : PackageRepository) (roles : List Role) :
    phi (allPkgs repo roles) (maxDepsLen repo + 2) (initState roles) <
      fuelBound repo roles := by
  have hphi : phi (allPkgs repo roles) (maxDepsLen repo + 2)
      (initState roles) = (maxDepsLen repo + 2) *
      uCount (allPkgs repo roles) [] [] + 1 + pendSum roles := by
    show (maxDepsLen repo + 2) * uCount (allPkgs repo roles) [] [] +
      (vecAll Stack.new).length + (savedAll Stack.new).length +
      (Stack.new).vec.length + pendSum roles + 0 = _
    rfl
  have hcount : uCount (allPkgs repo roles) [] [] ≤
      (allPkgs repo roles).length := by
    rw [uCount]
    exact le_trans (Finset.card_filter_le _ _) (allPkgs repo roles).toFinset_card_le
  have hmul : (maxDepsLen repo + 2) * uCount (allPkgs repo roles) [] [] ≤
      (maxDepsLen repo + 2) * (allPkgs repo roles).length :=
    Nat.mul_le_mul_left _ hcount
  rw [hphi, fuelBound_eq, Nat.mul_add, Nat.mul_one]
  omega

/-- C7: a dependency cycle reachable from the role's dependency closure makes
`resolve` fail with the cycle error instead of producing any executable
sequence. -/
theorem resolve_cycle_error (repo : PackageRepository) (role : Role)
    (hcyc : CycleReachable repo role) :
    resolve repo [role] = Except.error "cycle detected" := by
  have hU : ∀ p q, q ∈ repo.depList p → q ∈ allPkgs repo [role] :=
    depList_sub_allPkgs repo [role]
  have hC : ∀ p deps, repo.dependencies p = some deps →
      deps.length + 2 ≤ maxDepsLen repo + 2 := deps_le_maxDepsLen repo
  have hinv : MachInv repo (allPkgs repo [role]) role.dependencies
      (initState [role]) := by
    refine initState_mach repo [role] _ _ (roleDeps_sub_allPkgs repo [role])
      ?_
    intro p hp
    exact ⟨role, by simp, hp⟩
  have hphi := phi_init_lt repo [role]
  rw [resolve, resolvePairs]
  rcases hrun : resolveLoop repo (fuelBound repo [role]) (initState [role])
    with sorted | msg | _
  · exfalso
    obtain ⟨htopo, hnd, hmem⟩ := resolveLoop_ok_spec repo
      (allPkgs repo [role]) role.dependencies hU _ _ sorted hinv hrun
    obtain ⟨p, ⟨d, hd, hreach⟩, hloop⟩ := hcyc
    have hdl : d ∈ sorted.map (·.2) := hmem d hd
    have hpl : p ∈ sorted.map (·.2) :=
      topo_reach repo _ htopo hnd d p hreach hdl
    exact topoFrom_no_cycle repo _ htopo hnd p hpl hloop
  · have hm := resolveLoop_fail_msg repo (allPkgs repo [role])
      role.dependencies hU _ _ msg hinv hrun
    rw [hm]
  · exact absurd hrun (resolveLoop_no_fuel repo (allPkgs repo [role])
      role.dependencies (maxDepsLen repo + 2) hU hC _ _ hinv hphi)

def pkgX : Package := mkPkg "x" ["y"]
def pkgY : Package := mkPkg "y" ["x"]

/-- The two-package cycle of `cyclical_resolver_test`. -/
def cycRepo : PackageRepository := buildRepo [pkgX, pkgY]

def cycRole : Role := mkRole "cyc" [pkgX]

theorem resolve_cycle_error_witness :
    CycleReachable cycRepo cycRole ∧
    resolve cycRepo [cycRole] = Except.error "cycle detected" := by
  have hxy : DepEdge cycRepo pkgX pkgY := by
    show pkgY ∈ cycRepo.depList pkgX
    decide
  have hyx : DepEdge cycRepo pkgY pkgX := by
    show pkgX ∈ cycRepo.depList pkgY
    decide
  have hcyc : CycleReachable cycRepo cycRole :=
    ⟨pkgX, ⟨pkgX, by decide, Relation.ReflTransGen.refl⟩,
      Relation.TransGen.head hxy (Relation.TransGen.single hyx)⟩
  exact ⟨hcyc, resolve_cycle_error cycRepo cycRole hcyc⟩

end Turboshell
